import Mathlib

set_option maxRecDepth 100000

/-! Verification of a C++ GF(256) field implementation (gf256.h): table-based
arithmetic over the Galois field with 256 elements under the reducing polynomial
x^8 + x^4 + x^3 + x + 1, and Lagrange polynomial interpolation over that field.
Field elements are bytes, modelled as natural numbers below 256. -/

/-- Error conditions raised by the C++ code (std::runtime_error with distinct
messages); modelled as a tagged error type. -/
inductive GFError where
  | divideByZero
  | logOfZero
  | domainError
  | tooFewShares
  | mismatchedShareWidth
  | duplicateXValue
deriving DecidableEq, Repr

/-- GF::max (gf256.h line 141): size of the multiplicative group. -/
def gfMax : Nat := 255

/-- GF::logs (gf256.h lines 144-161): logarithm table of generator element 3.
Entry i holds the discrete log of the field element i+1. -/
def logs : List Nat :=
  [0, 25, 1, 50, 2, 26, 198, 75, 199, 27, 104, 51, 238, 223, 3, 100, 4, 224, 14, 52, 141, 129,
  239, 76, 113, 8, 200, 248, 105, 28, 193, 125, 194, 29, 181, 249, 185, 39, 106, 77, 228, 166,
  114, 154, 201, 9, 120, 101, 47, 138, 5, 33, 15, 225, 36, 18, 240, 130, 69, 53, 147, 218, 142,
  150, 143, 219, 189, 54, 208, 206, 148, 19, 92, 210, 241, 64, 70, 131, 56, 102, 221, 253, 48,
  191, 6, 139, 98, 179, 37, 226, 152, 34, 136, 145, 16, 126, 110, 72, 195, 163, 182, 30, 66,
  58, 107, 40, 84, 250, 133, 61, 186, 43, 121, 10, 21, 155, 159, 94, 202, 78, 212, 172, 229,
  243, 115, 167, 87, 175, 88, 168, 80, 244, 234, 214, 116, 79, 174, 233, 213, 231, 230, 173,
  232, 44, 215, 117, 122, 235, 22, 11, 245, 89, 203, 95, 176, 156, 169, 81, 160, 127, 12, 246,
  111, 23, 196, 73, 236, 216, 67, 31, 45, 164, 118, 123, 183, 204, 187, 62, 90, 251, 96, 177,
  134, 59, 82, 161, 108, 170, 85, 41, 157, 151, 178, 135, 144, 97, 190, 220, 252, 188, 149,
  207, 205, 55, 63, 91, 209, 83, 57, 132, 60, 65, 162, 109, 71, 20, 42, 158, 93, 86, 242, 211,
  171, 68, 17, 146, 217, 35, 32, 46, 137, 180, 124, 184, 38, 119, 153, 227, 165, 103, 74, 237,
  222, 197, 49, 254, 24, 13, 99, 140, 128, 192, 247, 112, 7]

/-- GF::ilogs (gf256.h lines 164-183): inverse logarithm table of generator
element 3. Entry e holds 3^e in the field. -/
def ilogs : List Nat :=
  [1, 3, 5, 15, 17, 51, 85, 255, 26, 46, 114, 150, 161, 248, 19, 53, 95, 225, 56, 72, 216, 115,
  149, 164, 247, 2, 6, 10, 30, 34, 102, 170, 229, 52, 92, 228, 55, 89, 235, 38, 106, 190, 217,
  112, 144, 171, 230, 49, 83, 245, 4, 12, 20, 60, 68, 204, 79, 209, 104, 184, 211, 110, 178,
  205, 76, 212, 103, 169, 224, 59, 77, 215, 98, 166, 241, 8, 24, 40, 120, 136, 131, 158, 185,
  208, 107, 189, 220, 127, 129, 152, 179, 206, 73, 219, 118, 154, 181, 196, 87, 249, 16, 48,
  80, 240, 11, 29, 39, 105, 187, 214, 97, 163, 254, 25, 43, 125, 135, 146, 173, 236, 47, 113,
  147, 174, 233, 32, 96, 160, 251, 22, 58, 78, 210, 109, 183, 194, 93, 231, 50, 86, 250, 21,
  63, 65, 195, 94, 226, 61, 71, 201, 64, 192, 91, 237, 44, 116, 156, 191, 218, 117, 159, 186,
  213, 100, 172, 239, 42, 126, 130, 157, 188, 223, 122, 142, 137, 128, 155, 182, 193, 88, 232,
  35, 101, 175, 234, 37, 111, 177, 200, 67, 197, 84, 252, 31, 33, 99, 165, 244, 7, 9, 27, 45,
  119, 153, 176, 203, 70, 202, 69, 207, 74, 222, 121, 139, 134, 145, 168, 227, 62, 66, 198, 81,
  243, 14, 18, 54, 90, 238, 41, 123, 141, 140, 143, 138, 133, 148, 167, 242, 13, 23, 57, 75,
  221, 124, 132, 151, 162, 253, 28, 36, 108, 180, 199, 82, 246]


/-- GF::operator+ and operator- (gf256.h lines 56-62): addition and subtraction
are both bitwise xor. -/
def gfAdd (a b : Nat) : Nat := a ^^^ b

/-- GF::operator* (gf256.h lines 75-84): table-based multiplication. Returns 0
if either operand is 0; otherwise adds the logs, reduces the sum below max by a
single conditional subtraction, and looks up the antilog. -/
def gfMul (a b : Nat) : Nat :=
  if a = 0 ∨ b = 0 then 0
  else
    let c := logs.getD (a - 1) 0 + logs.getD (b - 1) 0
    let c := if c ≥ gfMax then c - gfMax else c
    ilogs.getD c 0

/-- GF::operator/ (gf256.h lines 90-100): table-based division. Throws on a zero
divisor; returns 0 for a zero dividend; otherwise subtracts the logs (as signed
integers), adds max if negative, and looks up the antilog. -/
def gfDiv (a b : Nat) : Except GFError Nat :=
  if b = 0 then .error .divideByZero
  else if a = 0 then .ok 0
  else
    let c : Int := (logs.getD (a - 1) 0 : Int) - (logs.getD (b - 1) 0 : Int)
    let c := if c < 0 then c + gfMax else c
    .ok (ilogs.getD c.toNat 0)

/-- log (gf256.h lines 107-110): discrete logarithm base 3. Throws on 0. -/
def gfLog (a : Nat) : Except GFError Nat :=
  if a = 0 then .error .logOfZero else .ok (logs.getD (a - 1) 0)

/-- GF::exp (gf256.h lines 114-120): generator 3 raised to an arbitrary integer
power. C++ % on int truncates toward zero, hence Int.tmod. -/
def gfExp (b : Int) : Nat :=
  let b := b.tmod gfMax
  let b := if b < 0 then b + gfMax else b
  ilogs.getD b.toNat 0

/-- pow (gf256.h lines 125-137): a raised to an arbitrary integer power. Throws
on a zero base with a non-positive exponent. -/
def gfPow (a : Nat) (b : Int) : Except GFError Nat :=
  if a = 0 then
    if b ≤ 0 then .error .domainError else .ok 0
  else
    let b := b.tmod gfMax
    if b = 0 then .ok 1
    else .ok (gfExp (b * (logs.getD (a - 1) 0 : Int)))

/-- The product pow(a, i) * pow(a, -i), as computed by the code: both powers
are taken and, when both succeed, multiplied with operator*. -/
def powMulInv (a : Nat) (i : Int) : Except GFError Nat :=
  match gfPow a i, gfPow a (-i) with
  | .ok p, .ok q => .ok (gfMul p q)
  | .error e, _ => .error e
  | .ok _, .error e => .error e

/-- The table index computed inside GF::operator* (gf256.h lines 78-79). -/
def mulIdx (a b : Nat) : Nat :=
  let c := logs.getD (a - 1) 0 + logs.getD (b - 1) 0
  if c ≥ gfMax then c - gfMax else c

/-- The table index computed inside GF::operator/ (gf256.h lines 94-95). -/
def divIdx (a b : Nat) : Int :=
  let c : Int := (logs.getD (a - 1) 0 : Int) - (logs.getD (b - 1) 0 : Int)
  if c < 0 then c + gfMax else c

/-- The table index computed inside GF::exp (gf256.h lines 115-116). -/
def expIdx (b : Int) : Int :=
  let b := b.tmod gfMax
  if b < 0 then b + gfMax else b

/-- Share (gf256.h lines 187-202): an x coordinate with a vector of y values. -/
structure Share where
  x : Nat
  ys : List Nat
deriving DecidableEq, Repr

/-- First loop of interpolate (gf256.h lines 246-258): checks each share's
width against m, short-circuits returning the share whose x equals the
destination, and accumulates the sum of log(s.x - dest_x). -/
def interpPass1 (m destX : Nat) : List Share → Nat → Except GFError (Share ⊕ Nat)
  | [], a => .ok (.inr a)
  | s :: rest, a =>
    if s.ys.length ≠ m then .error .mismatchedShareWidth
    else
      let d := s.x ^^^ destX
      if d = 0 then .ok (.inl s)
      else
        match gfLog d with
        | .error e => .error e
        | .ok l => interpPass1 m destX rest (a + l)

/-- Inner loop of interpolate (gf256.h lines 267-276): subtracts log(s.x - t.x)
for every share t other than s, detecting duplicate x values. The C++ loop skips
t when &s == &t, i.e. when t sits at s's own index, modelled by the index j. -/
def interpInner (s : Share) (sIdx : Nat) : Nat → List Share → Int → Except GFError Int
  | _, [], b => .ok b
  | j, t :: rest, b =>
    if j = sIdx then interpInner s sIdx (j + 1) rest b
    else
      let d := s.x ^^^ t.x
      if d = 0 then .error .duplicateXValue
      else
        match gfLog d with
        | .error e => .error e
        | .ok l => interpInner s sIdx (j + 1) rest (b - l)

/-- Accumulation step of interpolate (gf256.h lines 278-282): for each position
i below m, if y = s.ys[i] is nonzero, xor exp(b + log(y)) into r.ys[i]. -/
def addTerms (b : Int) (ys rys : List Nat) : List Nat :=
  List.zipWith
    (fun y r => if y ≠ 0 then r ^^^ gfExp (b + (logs.getD (y - 1) 0 : Int)) else r)
    ys rys

/-- Second loop of interpolate (gf256.h lines 264-283): for each share s at
index i, computes the log b of its Lagrange basis coefficient at the
destination, then accumulates its terms into the result vector. -/
def interpPass2 (shares : List Share) (destX a : Nat) :
    Nat → List Share → List Nat → Except GFError (List Nat)
  | _, [], rys => .ok rys
  | i, s :: rest, rys =>
    match gfLog (s.x ^^^ destX) with
    | .error e => .error e
    | .ok l =>
      match interpInner s i 0 shares ((a : Int) - (l : Int)) with
      | .error e => .error e
      | .ok b => interpPass2 shares destX a (i + 1) rest (addTerms b s.ys rys)

/-- interpolate (gf256.h lines 235-286): Lagrange interpolation of the shares
at the destination x. -/
def interpolate (shares : List Share) (destX : Nat) : Except GFError Share :=
  if shares.length < 2 then .error .tooFewShares
  else
    let m := (shares.headD ⟨0, []⟩).ys.length
    match interpPass1 m destX shares 0 with
    | .error e => .error e
    | .ok (.inl s) => .ok s
    | .ok (.inr a) =>
      match interpPass2 shares destX a 0 shares (List.replicate m 0) with
      | .error e => .error e
      | .ok rys => .ok ⟨destX, rys⟩

/-! Reference multiplication, modelled from the spec's description of the field:
carry-less (polynomial over GF(2)) multiplication of the two bytes, reduced
modulo the polynomial x^8 + x^4 + x^3 + x + 1 (the byte 0x11B = 283). -/

/-- Carry-less multiplication of a by the low k bits of b: the polynomial
product over GF(2) of the bit strings, with no reduction. -/
def clmul8 : Nat → Nat → Nat → Nat
  | 0, _, _ => 0
  | k + 1, a, b => (if b % 2 = 1 then a else 0) ^^^ clmul8 k (2 * a) (b / 2)

/-- Carry-less product of two bytes (at most 15 bits wide). -/
def clmul (a b : Nat) : Nat := clmul8 8 a b

/-- One reduction step: if bit i is set, xor in the reducing polynomial 283
shifted so that its leading bit cancels bit i. -/
def reduceStep (i x : Nat) : Nat := if x.testBit i then x ^^^ (283 <<< (i - 8)) else x

/-- Reduction of a 15-bit carry-less product modulo the reducing polynomial,
clearing bits 14 down to 8. -/
def polyReduce (x : Nat) : Nat :=
  reduceStep 8 (reduceStep 9 (reduceStep 10 (reduceStep 11
    (reduceStep 12 (reduceStep 13 (reduceStep 14 x))))))

/-- Reference GF(256) multiplication: carry-less product reduced modulo the
reducing polynomial. -/
def mulRef (a b : Nat) : Nat := polyReduce (clmul a b)

/-- Bytes as polynomials over GF(2): the bit at position k is the coefficient
of X^k. -/
noncomputable def phi (n : Nat) : Polynomial (ZMod 2) :=
  if n = 0 then 0
  else Polynomial.C ((n % 2 : Nat) : ZMod 2) + Polynomial.X * phi (n / 2)
decreasing_by exact Nat.div_lt_self (Nat.pos_of_ne_zero (by assumption)) one_lt_two

/-- The reducing polynomial x^8 + x^4 + x^3 + x + 1 as a polynomial over
GF(2). -/
noncomputable def PP : Polynomial (ZMod 2) :=
  Polynomial.X ^ 8 + Polynomial.X ^ 4 + Polynomial.X ^ 3 + Polynomial.X + 1

/-- Powers of the generator 3 under the reference multiplication. -/
def pow3 : Nat → Nat
  | 0 => 1
  | e + 1 => mulRef 3 (pow3 e)

/-! Facts about the two tables, established by finite checks. -/

set_option maxHeartbeats 4000000

theorem logs_length : logs.length = 255 := by rfl

theorem ilogs_length : ilogs.length = 255 := by rfl

theorem logs_getD_lt_aux : ∀ i < 255, logs.getD i 0 < 255 := by decide

theorem logs_getD_lt (i : Nat) : logs.getD i 0 < 255 := by
  by_cases h : i < 255
  · exact logs_getD_lt_aux i h
  · rw [List.getD_eq_getElem?_getD, List.getElem?_eq_none (by rw [logs_length]; omega)]
    norm_num

theorem ilogs_getD_lt_aux : ∀ e < 255, ilogs.getD e 0 < 256 := by decide

theorem ilogs_getD_lt (e : Nat) : ilogs.getD e 0 < 256 := by
  by_cases h : e < 255
  · exact ilogs_getD_lt_aux e h
  · rw [List.getD_eq_getElem?_getD, List.getElem?_eq_none (by rw [ilogs_length]; omega)]
    norm_num

theorem ilogs_getD_pos : ∀ e < 255, 1 ≤ ilogs.getD e 0 := by decide

theorem logs_ilogs : ∀ e < 255, logs.getD (ilogs.getD e 0 - 1) 0 = e := by decide

theorem ilogs_logs : ∀ v < 255, ilogs.getD (logs.getD v 0) 0 = v + 1 := by decide

theorem ilogs_succ : ∀ e < 254, ilogs.getD (e + 1) 0 = mulRef 3 (ilogs.getD e 0) := by decide

theorem ilogs_last : mulRef 3 (ilogs.getD 254 0) = 1 := by decide

/-- For nonzero operands, the conditional subtraction in gfMul computes the sum
of the logs reduced modulo 255. -/
theorem gfMul_eq_mod {a b : Nat} (ha : a ≠ 0) (hb : b ≠ 0) :
    gfMul a b = ilogs.getD ((logs.getD (a - 1) 0 + logs.getD (b - 1) 0) % 255) 0 := by
  have h1 := logs_getD_lt (a - 1)
  have h2 := logs_getD_lt (b - 1)
  unfold gfMul gfMax
  rw [if_neg (by tauto)]
  dsimp only
  set c := logs.getD (a - 1) 0 + logs.getD (b - 1) 0 with hc
  by_cases h : c ≥ 255
  · rw [if_pos h]
    have : c % 255 = c - 255 := by
      rw [Nat.mod_eq_sub_mod h, Nat.mod_eq_of_lt (by omega)]
    rw [this]
  · rw [if_neg h, Nat.mod_eq_of_lt (by omega)]

open Polynomial in
theorem phi_rec (n : Nat) : phi n = C ((n % 2 : Nat) : ZMod 2) + X * phi (n / 2) := by
  by_cases h : n = 0
  · subst h
    rw [phi]
    simp [phi]
  · rw [phi, if_neg h]

theorem phi_zero : phi 0 = 0 := by rw [phi]; simp

theorem phi_one : phi 1 = 1 := by
  rw [phi_rec]
  rw [show ((1 % 2 : Nat) : ZMod 2) = 1 by decide]
  norm_num [phi_zero]

theorem poly_two_eq_zero : (2 : Polynomial (ZMod 2)) = 0 := by
  have h2 : (2 : Polynomial (ZMod 2)) = ((2 : ℕ) : Polynomial (ZMod 2)) := by norm_cast
  rw [h2, ← Polynomial.C_eq_natCast, show ((2 : ℕ) : ZMod 2) = 0 by decide, Polynomial.C_0]

theorem poly_add_self (p : Polynomial (ZMod 2)) : p + p = 0 := by
  rw [← two_mul, poly_two_eq_zero, zero_mul]

theorem poly_neg (p : Polynomial (ZMod 2)) : -p = p := by
  rw [neg_eq_iff_add_eq_zero, poly_add_self]

theorem poly_sub (p q : Polynomial (ZMod 2)) : p - q = p + q := by
  rw [sub_eq_add_neg, poly_neg]

theorem phi_two_mul (a : Nat) : phi (2 * a) = Polynomial.X * phi a := by
  rw [phi_rec, Nat.mul_mod_right, Nat.mul_div_cancel_left _ (by norm_num : 0 < 2)]
  norm_num

theorem phi_mod_two (n : Nat) : phi (n % 2) = Polynomial.C ((n % 2 : Nat) : ZMod 2) := by
  rcases Nat.mod_two_eq_zero_or_one n with h | h <;> rw [h]
  · rw [phi_zero]
    norm_num
  · rw [phi_one, show ((1 : Nat) : ZMod 2) = 1 by decide, Polynomial.C_1]

open Polynomial in
theorem phi_coeff (n : Nat) : ∀ m, (phi n).coeff m = if n.testBit m then 1 else 0 := by
  induction n using Nat.strong_induction_on with
  | _ n ih =>
    intro m
    by_cases hn : n = 0
    · subst hn
      simp [phi_zero]
    · rw [phi_rec]
      match m with
      | 0 =>
        rw [coeff_add, coeff_C, if_pos rfl, mul_coeff_zero, coeff_X_zero, zero_mul, add_zero,
          Nat.testBit_zero]
        rcases Nat.mod_two_eq_zero_or_one n with h | h <;> rw [h] <;> decide
      | m + 1 =>
        rw [coeff_add, coeff_C, if_neg (by omega), coeff_X_mul, zero_add,
          ih (n / 2) (Nat.div_lt_self (Nat.pos_of_ne_zero hn) one_lt_two) m,
          Nat.testBit_div_two]

theorem phi_inj {a b : Nat} (h : phi a = phi b) : a = b := by
  apply Nat.eq_of_testBit_eq
  intro i
  have hc := congrArg (fun p => Polynomial.coeff p i) h
  simp only [phi_coeff] at hc
  rcases Bool.eq_false_or_eq_true (a.testBit i) with ha | ha <;>
      rcases Bool.eq_false_or_eq_true (b.testBit i) with hb | hb <;>
    rw [ha, hb] at hc ⊢ <;> first | rfl | simp at hc

theorem phi_xor (a : Nat) : ∀ b, phi (a ^^^ b) = phi a + phi b := by
  induction a using Nat.strong_induction_on with
  | _ a ih =>
    intro b
    by_cases ha : a = 0
    · subst ha
      simp [phi_zero]
    · by_cases hx : a ^^^ b = 0
      · have hab : a = b := by
          have := congrArg (fun t => t ^^^ b) hx
          simpa [Nat.xor_assoc] using this
        subst hab
        rw [hx, phi_zero, poly_add_self]
      · have hm : (a ^^^ b) % 2 = a % 2 ^^^ b % 2 := by
          rw [← Nat.and_one_is_mod, ← Nat.and_one_is_mod, ← Nat.and_one_is_mod,
            Nat.and_xor_distrib_right]
        have hC : (((a ^^^ b) % 2 : Nat) : ZMod 2)
            = ((a % 2 : Nat) : ZMod 2) + ((b % 2 : Nat) : ZMod 2) := by
          rw [hm]
          rcases Nat.mod_two_eq_zero_or_one a with h1 | h1 <;>
            rcases Nat.mod_two_eq_zero_or_one b with h2 | h2 <;>
              rw [h1, h2] <;> decide
        rw [phi_rec (a ^^^ b), phi_rec a, phi_rec b, Nat.xor_div_two,
          ih (a / 2) (Nat.div_lt_self (Nat.pos_of_ne_zero ha) one_lt_two) (b / 2), hC,
          Polynomial.C_add]
        ring

theorem phi_two_pow (k : Nat) : phi (2 ^ k) = Polynomial.X ^ k := by
  induction k with
  | zero => simpa using phi_one
  | succ k ih => rw [pow_succ, mul_comm, phi_two_mul, ih, pow_succ, mul_comm]

theorem phi_mul_two_pow (x s : Nat) : phi (x * 2 ^ s) = Polynomial.X ^ s * phi x := by
  induction s with
  | zero => simp
  | succ s ih =>
    rw [pow_succ, ← Nat.mul_assoc, show x * 2 ^ s * 2 = 2 * (x * 2 ^ s) by ring, phi_two_mul, ih,
      pow_succ]
    ring

theorem phi_shiftLeft (x s : Nat) : phi (x <<< s) = Polynomial.X ^ s * phi x := by
  rw [Nat.shiftLeft_eq, phi_mul_two_pow]

theorem phi_if_two (a b : Nat) :
    phi (if b % 2 = 1 then a else 0) = Polynomial.C ((b % 2 : Nat) : ZMod 2) * phi a := by
  rcases Nat.mod_two_eq_zero_or_one b with h | h <;> rw [h]
  · simp [phi_zero]
  · simp [phi_one]

theorem phi_clmul8 : ∀ k a b, b < 2 ^ k → phi (clmul8 k a b) = phi a * phi b := by
  intro k
  induction k with
  | zero =>
    intro a b hb
    interval_cases b
    simp [clmul8, phi_zero]
  | succ k ih =>
    intro a b hb
    rw [clmul8, phi_xor, phi_if_two,
      ih (2 * a) (b / 2) (by omega), phi_two_mul, phi_rec b]
    ring

theorem phi_clmul (a b : Nat) (hb : b < 256) : phi (clmul a b) = phi a * phi b :=
  phi_clmul8 8 a b hb

theorem phi_283 : phi 283 = PP := by
  have h : (283 : Nat) = 256 ^^^ 16 ^^^ 8 ^^^ 2 ^^^ 1 := by decide
  have h256 : phi 256 = Polynomial.X ^ 8 := by
    rw [show (256 : Nat) = 2 ^ 8 by norm_num, phi_two_pow]
  have h16 : phi 16 = Polynomial.X ^ 4 := by
    rw [show (16 : Nat) = 2 ^ 4 by norm_num, phi_two_pow]
  have h8 : phi 8 = Polynomial.X ^ 3 := by
    rw [show (8 : Nat) = 2 ^ 3 by norm_num, phi_two_pow]
  have h2 : phi 2 = Polynomial.X := by
    have h := phi_two_pow 1
    rw [pow_one, pow_one] at h
    exact h
  rw [h, phi_xor, phi_xor, phi_xor, phi_xor, h256, h16, h8, h2, phi_one]
  unfold PP
  ring

open Polynomial in
theorem phi_degree_lt (k : Nat) : ∀ n < 2 ^ k, (phi n).degree < (k : WithBot ℕ) := by
  intro n hn
  rw [degree_lt_iff_coeff_zero]
  intro m hm
  rw [phi_coeff]
  have hb : n.testBit m = false := by
    apply Nat.testBit_lt_two_pow
    calc n < 2 ^ k := hn
    _ ≤ 2 ^ m := Nat.pow_le_pow_right (by norm_num) (by exact_mod_cast hm)
  rw [hb]
  rfl

theorem clmul8_lt : ∀ k m a b, 1 ≤ k → a < 2 ^ m → clmul8 k a b < 2 ^ (m + k - 1) := by
  intro k
  induction k with
  | zero => omega
  | succ k ih =>
    intro m a b _ ha
    rw [clmul8]
    by_cases hk : k = 0
    · subst hk
      rw [clmul8]
      have h1 : (if b % 2 = 1 then a else 0) < 2 ^ m := by split <;> [exact ha; positivity]
      simpa using h1
    · have h1 : (if b % 2 = 1 then a else 0) < 2 ^ (m + k) := by
        have : (2 : Nat) ^ m ≤ 2 ^ (m + k) := Nat.pow_le_pow_right (by norm_num) (by omega)
        split <;> omega
      have h2 : clmul8 k (2 * a) (b / 2) < 2 ^ (m + k) := by
        have := ih (m + 1) (2 * a) (b / 2) (by omega) (by rw [pow_succ]; omega)
        have he : m + 1 + k - 1 = m + k := by omega
        rwa [he] at this
      have := Nat.xor_lt_two_pow h1 h2
      have he : m + (k + 1) - 1 = m + k := by omega
      rwa [he]

theorem clmul_lt {a b : Nat} (ha : a < 256) : clmul a b < 2 ^ 15 := by
  have := clmul8_lt 8 8 a b (by norm_num) (by simpa using ha)
  simpa using this

theorem lemma_283_testBit_8 : Nat.testBit 283 8 = true := by decide

theorem lemma_283_testBit_ge_9 {j : Nat} (hj : 9 ≤ j) : Nat.testBit 283 j = false := by
  apply Nat.testBit_lt_two_pow
  calc (283 : Nat) < 2 ^ 9 := by norm_num
  _ ≤ 2 ^ j := Nat.pow_le_pow_right (by norm_num) hj

theorem reduceStep_lt {i x : Nat} (h8 : 8 ≤ i) (hx : x < 2 ^ (i + 1)) : reduceStep i x < 2 ^ i := by
  unfold reduceStep
  by_cases ht : x.testBit i
  · rw [if_pos ht]
    apply Nat.lt_pow_two_of_testBit
    intro j hj
    rw [Nat.testBit_xor, Nat.testBit_shiftLeft]
    rcases Nat.eq_or_lt_of_le hj with hji | hji
    · rw [← hji, ht, show i - (i - 8) = 8 by omega, decide_eq_true (by omega : i ≥ i - 8),
        lemma_283_testBit_8]
      rfl
    · rw [Nat.testBit_lt_two_pow (by
        calc x < 2 ^ (i + 1) := hx
        _ ≤ 2 ^ j := Nat.pow_le_pow_right (by norm_num) (by omega))]
      by_cases hge : j ≥ i - 8
      · rw [decide_eq_true hge, lemma_283_testBit_ge_9 (by omega)]
        rfl
      · rw [decide_eq_false hge]
        rfl
  · rw [if_neg ht]
    have hb : x.testBit i = false := by simpa using ht
    have hd : x / 2 ^ i < 2 := by
      rw [Nat.div_lt_iff_lt_mul (by positivity)]
      have h2 : (2 : Nat) ^ (i + 1) = 2 ^ i * 2 := pow_succ 2 i
      omega
    rw [Nat.testBit_to_div_mod] at hb
    have hb2 : ¬(x / 2 ^ i % 2 = 1) := by simpa using hb
    have h0 : x / 2 ^ i = 0 := by
      generalize ht : x / 2 ^ i = t at hd hb2
      omega
    exact (Nat.div_eq_zero_iff (by positivity)).mp h0

theorem polyReduce_lt {x : Nat} (hx : x < 2 ^ 15) : polyReduce x < 256 := by
  unfold polyReduce
  have h14 := reduceStep_lt (by norm_num) hx
  have h13 := reduceStep_lt (by norm_num) h14
  have h12 := reduceStep_lt (by norm_num) h13
  have h11 := reduceStep_lt (by norm_num) h12
  have h10 := reduceStep_lt (by norm_num) h11
  have h9 := reduceStep_lt (by norm_num) h10
  have h8 := reduceStep_lt (by norm_num) h9
  simpa using h8

theorem phi_reduceStep (i x : Nat) :
    ∃ q : Polynomial (ZMod 2), phi (reduceStep i x) = phi x + q * PP := by
  unfold reduceStep
  by_cases ht : x.testBit i
  · rw [if_pos ht]
    refine ⟨Polynomial.X ^ (i - 8), ?_⟩
    rw [phi_xor, phi_shiftLeft, phi_283]
  · rw [if_neg ht]
    exact ⟨0, by rw [zero_mul, add_zero]⟩

theorem phi_polyReduce (x : Nat) :
    ∃ q : Polynomial (ZMod 2), phi (polyReduce x) = phi x + q * PP := by
  unfold polyReduce
  obtain ⟨q14, h14⟩ := phi_reduceStep 14 x
  obtain ⟨q13, h13⟩ := phi_reduceStep 13 (reduceStep 14 x)
  obtain ⟨q12, h12⟩ := phi_reduceStep 12 (reduceStep 13 (reduceStep 14 x))
  obtain ⟨q11, h11⟩ := phi_reduceStep 11 (reduceStep 12 (reduceStep 13 (reduceStep 14 x)))
  obtain ⟨q10, h10⟩ := phi_reduceStep 10
    (reduceStep 11 (reduceStep 12 (reduceStep 13 (reduceStep 14 x))))
  obtain ⟨q9, h9⟩ := phi_reduceStep 9
    (reduceStep 10 (reduceStep 11 (reduceStep 12 (reduceStep 13 (reduceStep 14 x)))))
  obtain ⟨q8, h8⟩ := phi_reduceStep 8
    (reduceStep 9 (reduceStep 10 (reduceStep 11 (reduceStep 12 (reduceStep 13
      (reduceStep 14 x))))))
  refine ⟨q8 + q9 + q10 + q11 + q12 + q13 + q14, ?_⟩
  rw [h8, h9, h10, h11, h12, h13, h14]
  ring

theorem PP_monic : PP.Monic := by
  unfold PP
  monicity!

theorem PP_degree : PP.degree = 8 := by
  unfold PP
  compute_degree!

open Polynomial in
theorem phi_mulRef {a b : Nat} (ha : a < 256) (hb : b < 256) :
    phi (mulRef a b) = (phi a * phi b) %ₘ PP := by
  have hcl : clmul a b < 2 ^ 15 := clmul_lt ha
  obtain ⟨q, hq⟩ := phi_polyReduce (clmul a b)
  have huniq := div_modByMonic_unique (f := phi a * phi b) (g := PP) q (phi (mulRef a b))
    PP_monic ?_
  · exact huniq.2.symm
  constructor
  · rw [show phi (mulRef a b) = phi (polyReduce (clmul a b)) from rfl, hq, phi_clmul a b hb]
    calc phi a * phi b + q * PP + PP * q
        = phi a * phi b + (q * PP + q * PP) := by ring
    _ = phi a * phi b := by rw [poly_add_self, add_zero]
  · rw [PP_degree]
    exact phi_degree_lt 8 (mulRef a b) (polyReduce_lt hcl)

theorem mulRef_lt {a b : Nat} (ha : a < 256) : mulRef a b < 256 :=
  polyReduce_lt (clmul_lt ha)

open Polynomial in
theorem modByMonic_mul_left_congr (x z : Polynomial (ZMod 2)) :
    (x %ₘ PP * z) %ₘ PP = (x * z) %ₘ PP := by
  apply modByMonic_eq_of_dvd_sub PP_monic
  rw [modByMonic_eq_sub_mul_div x PP_monic]
  exact ⟨-(x /ₘ PP * z), by ring⟩

open Polynomial in
theorem modByMonic_mul_right_congr (x z : Polynomial (ZMod 2)) :
    (x * (z %ₘ PP)) %ₘ PP = (x * z) %ₘ PP := by
  rw [mul_comm, modByMonic_mul_left_congr, mul_comm]

theorem mulRef_comm {a b : Nat} (ha : a < 256) (hb : b < 256) : mulRef a b = mulRef b a := by
  apply phi_inj
  rw [phi_mulRef ha hb, phi_mulRef hb ha, mul_comm]

theorem mulRef_assoc {a b c : Nat} (ha : a < 256) (hb : b < 256) (hc : c < 256) :
    mulRef (mulRef a b) c = mulRef a (mulRef b c) := by
  apply phi_inj
  rw [phi_mulRef (mulRef_lt ha) hc, phi_mulRef ha (mulRef_lt hb),
    phi_mulRef ha hb, phi_mulRef hb hc, modByMonic_mul_left_congr,
    modByMonic_mul_right_congr, mul_assoc]

open Polynomial in
theorem phi_modByMonic_self {a : Nat} (ha : a < 256) : phi a %ₘ PP = phi a := by
  rw [(modByMonic_eq_self_iff PP_monic).mpr]
  rw [PP_degree]
  exact phi_degree_lt 8 a ha

theorem mulRef_one {a : Nat} (ha : a < 256) : mulRef a 1 = a := by
  apply phi_inj
  rw [phi_mulRef ha (by norm_num), phi_one, mul_one, phi_modByMonic_self ha]

theorem one_mulRef {a : Nat} (ha : a < 256) : mulRef 1 a = a := by
  rw [mulRef_comm (by norm_num) ha, mulRef_one ha]

theorem mulRef_distrib {a b c : Nat} (ha : a < 256) (hb : b < 256) (hc : c < 256) :
    mulRef a (b ^^^ c) = mulRef a b ^^^ mulRef a c := by
  apply phi_inj
  rw [phi_xor, phi_mulRef ha (Nat.xor_lt_two_pow (n := 8) hb hc),
    phi_mulRef ha hb, phi_mulRef ha hc, phi_xor, mul_add, Polynomial.add_modByMonic]

theorem ilogs_zero : ilogs.getD 0 0 = 1 := rfl

theorem pow3_lt : ∀ e, pow3 e < 256 := by
  intro e
  induction e with
  | zero => norm_num [pow3]
  | succ e _ => exact mulRef_lt (by norm_num)

theorem ilogs_pow3 : ∀ e < 255, ilogs.getD e 0 = pow3 e := by
  intro e
  induction e with
  | zero => intro _; exact ilogs_zero
  | succ e ih =>
    intro he
    rw [ilogs_succ e (by omega), ih (by omega), pow3]

theorem pow3_add (m n : Nat) : pow3 (m + n) = mulRef (pow3 m) (pow3 n) := by
  induction m with
  | zero => rw [Nat.zero_add, pow3, one_mulRef (pow3_lt n)]
  | succ m ih =>
    rw [show m + 1 + n = (m + n) + 1 by omega, pow3, ih, pow3,
      ← mulRef_assoc (by norm_num) (pow3_lt m) (pow3_lt n)]

theorem pow3_mul_255 : ∀ k, pow3 (255 * k) = 1 := by
  intro k
  induction k with
  | zero => rw [Nat.mul_zero, pow3]
  | succ k ih =>
    rw [Nat.mul_succ, pow3_add, ih, one_mulRef (pow3_lt 255), show (255 : Nat) = 254 + 1 by rfl,
      pow3, ← ilogs_pow3 254 (by norm_num), ilogs_last]

theorem pow3_mod (n : Nat) : pow3 (n % 255) = pow3 n := by
  conv_rhs => rw [show n = 255 * (n / 255) + n % 255 from (Nat.div_add_mod n 255).symm]
  rw [pow3_add, pow3_mul_255, one_mulRef (pow3_lt (n % 255))]

theorem clmul8_zero_left : ∀ k b, clmul8 k 0 b = 0 := by
  intro k
  induction k with
  | zero => intro b; rfl
  | succ k ih =>
    intro b
    rw [clmul8, Nat.mul_zero, ih (b / 2)]
    split <;> rfl

theorem clmul8_zero_right : ∀ k a, clmul8 k a 0 = 0 := by
  intro k
  induction k with
  | zero => intro a; rfl
  | succ k ih =>
    intro a
    rw [clmul8, show (0 : Nat) / 2 = 0 by rfl, ih (2 * a)]
    norm_num

theorem polyReduce_zero : polyReduce 0 = 0 := by decide

theorem mulRef_zero_left (b : Nat) : mulRef 0 b = 0 := by
  rw [mulRef, clmul, clmul8_zero_left, polyReduce_zero]

theorem mulRef_zero_right (a : Nat) : mulRef a 0 = 0 := by
  rw [mulRef, clmul, clmul8_zero_right, polyReduce_zero]

theorem gfMul_eq_mulRef {a b : Nat} (ha : a < 256) (hb : b < 256) : gfMul a b = mulRef a b := by
  by_cases h0 : a = 0 ∨ b = 0
  · rw [gfMul, if_pos h0]
    rcases h0 with h | h <;> subst h
    · rw [mulRef_zero_left]
    · rw [mulRef_zero_right]
  · push_neg at h0
    obtain ⟨ha0, hb0⟩ := h0
    have hla := logs_getD_lt (a - 1)
    have hlb := logs_getD_lt (b - 1)
    rw [gfMul_eq_mod ha0 hb0,
      ilogs_pow3 _ (Nat.mod_lt _ (by norm_num)), pow3_mod, pow3_add,
      ← ilogs_pow3 _ hla, ← ilogs_pow3 _ hlb,
      ilogs_logs (a - 1) (by omega), ilogs_logs (b - 1) (by omega)]
    congr 1 <;> omega

/-! Index computations: the operations read their tables exactly at the indices
computed by mulIdx, divIdx and expIdx. -/

theorem gfMul_mulIdx (a b : Nat) :
    gfMul a b = if a = 0 ∨ b = 0 then 0 else ilogs.getD (mulIdx a b) 0 := rfl

theorem gfDiv_divIdx (a b : Nat) :
    gfDiv a b = if b = 0 then .error .divideByZero
      else if a = 0 then .ok 0 else .ok (ilogs.getD (divIdx a b).toNat 0) := rfl

theorem gfExp_expIdx (i : Int) : gfExp i = ilogs.getD (expIdx i).toNat 0 := rfl

theorem neg_tmod (a b : Int) : (-a).tmod b = -(a.tmod b) := by
  rw [Int.tmod_def, Int.tmod_def, Int.neg_tdiv]
  ring

theorem tmod_gt_neg (a : Int) {b : Int} (hb : 0 < b) : -b < a.tmod b := by
  rcases le_or_lt 0 a with ha | ha
  · have := Int.tmod_nonneg b ha
    omega
  · have h1 : (-a).tmod b < b := Int.tmod_lt_of_pos _ hb
    have h3 : a.tmod b = -((-a).tmod b) := by
      have h := neg_tmod (-a) b
      simp only [neg_neg] at h
      omega
    omega

theorem expIdx_bounds (i : Int) : 0 ≤ expIdx i ∧ expIdx i < gfMax := by
  unfold expIdx gfMax
  have h1 : i.tmod ((255 : Nat) : Int) < ((255 : Nat) : Int) :=
    Int.tmod_lt_of_pos i (by norm_num)
  have h2 : -((255 : Nat) : Int) < i.tmod ((255 : Nat) : Int) := tmod_gt_neg i (by norm_num)
  dsimp only
  split <;> constructor <;> omega

/-! Claim theorems. -/

/-- C2: for all 256 x 256 pairs of field elements, the table-based
multiplication gfMul returns the same element as the reference definition
mulRef, the carry-less product of the two bytes reduced modulo the polynomial
x^8 + x^4 + x^3 + x + 1. -/
theorem c2_mul_refinement : ∀ a < 256, ∀ b < 256, gfMul a b = mulRef a b :=
  fun a ha b hb => gfMul_eq_mulRef ha hb

theorem c2_mul_refinement_witness :
    (123 : Nat) < 256 ∧ (45 : Nat) < 256 ∧ gfMul 123 45 = mulRef 123 45 :=
  ⟨by norm_num, by norm_num, c2_mul_refinement 123 (by norm_num) 45 (by norm_num)⟩

/-- C4: the two 255-entry tables are mutual inverses under the value-1 indexing
used by the code: ilogs[logs[v-1]] = v for every nonzero byte v, and
logs[ilogs[e]-1] = e for every e in [0,255). -/
theorem c4_tables_mutual_inverse :
    (∀ v, 1 ≤ v → v < 256 → ilogs.getD (logs.getD (v - 1) 0) 0 = v) ∧
    (∀ e < 255, logs.getD (ilogs.getD e 0 - 1) 0 = e) := by
  constructor
  · intro v h1 h2
    have h := ilogs_logs (v - 1) (by omega)
    rwa [show v - 1 + 1 = v by omega] at h
  · exact logs_ilogs

theorem c4_tables_mutual_inverse_witness :
    (1 ≤ 3 ∧ (3 : Nat) < 256 ∧ ilogs.getD (logs.getD (3 - 1) 0) 0 = 3) ∧
    ((7 : Nat) < 255 ∧ logs.getD (ilogs.getD 7 0 - 1) 0 = 7) :=
  ⟨⟨by norm_num, by norm_num, c4_tables_mutual_inverse.1 3 (by norm_num) (by norm_num)⟩,
    ⟨by norm_num, c4_tables_mutual_inverse.2 7 (by norm_num)⟩⟩

/-- C8: division fails with DivideByZero exactly when the divisor is zero, for
every dividend including zero; with a nonzero divisor and a zero dividend the
result is 0. -/
theorem c8_divide_by_zero :
    ∀ a b : Nat, ((gfDiv a b = Except.error GFError.divideByZero) ↔ b = 0) ∧
      (a = 0 → b ≠ 0 → gfDiv a b = Except.ok 0) := by
  intro a b
  refine ⟨⟨fun h => ?_, fun hb => by rw [gfDiv, if_pos hb]⟩, fun ha hb => ?_⟩
  · by_contra hb
    rw [gfDiv, if_neg hb] at h
    split at h <;> simp at h
  · subst ha
    rw [gfDiv, if_neg hb, if_pos rfl]

theorem c8_divide_by_zero_witness :
    gfDiv 7 0 = Except.error GFError.divideByZero ∧ gfDiv 0 5 = Except.ok 0 :=
  ⟨(c8_divide_by_zero 7 0).1.mpr rfl, (c8_divide_by_zero 0 5).2 rfl (by norm_num)⟩

/-- C9: for operands that pass the zero guards, every table index computed by
the operations is in bounds: the index of operator* is below max, the index of
operator/ is in [0, max), the index of log and pow into logs is below max, and
the index of exp is in [0, max), for every integer exponent. -/
theorem c9_index_bounds :
    ∀ a, 1 ≤ a → a < 256 → ∀ b, 1 ≤ b → b < 256 → ∀ i : Int,
      mulIdx a b < gfMax ∧
      (0 ≤ divIdx a b ∧ divIdx a b < gfMax) ∧
      a - 1 < gfMax ∧
      (0 ≤ expIdx i ∧ expIdx i < gfMax) := by
  intro a ha1 ha2 b hb1 hb2 i
  have hla := logs_getD_lt (a - 1)
  have hlb := logs_getD_lt (b - 1)
  refine ⟨?_, ?_, ?_, expIdx_bounds i⟩
  · unfold mulIdx gfMax
    dsimp only
    split <;> omega
  · unfold divIdx gfMax
    dsimp only
    have hla2 : ((logs.getD (a - 1) 0 : Nat) : Int) < ((255 : Nat) : Int) := by
      exact_mod_cast hla
    have hlb2 : ((logs.getD (b - 1) 0 : Nat) : Int) < ((255 : Nat) : Int) := by
      exact_mod_cast hlb
    constructor
    · split <;> omega
    · split <;> omega
  · unfold gfMax
    omega

theorem c9_index_bounds_witness :
    1 ≤ 9 ∧ (9 : Nat) < 256 ∧ 1 ≤ 200 ∧ (200 : Nat) < 256 ∧
      (mulIdx 9 200 < gfMax ∧
        (0 ≤ divIdx 9 200 ∧ divIdx 9 200 < gfMax) ∧
        9 - 1 < gfMax ∧
        (0 ≤ expIdx (-1000) ∧ expIdx (-1000) < gfMax)) :=
  ⟨by norm_num, by norm_num, by norm_num, by norm_num,
    c9_index_bounds 9 (by norm_num) (by norm_num) 200 (by norm_num) (by norm_num) (-1000)⟩

theorem gfExp_eq_emod (x : Int) : gfExp x = ilogs.getD (x % 255).toNat 0 := by
  unfold gfExp gfMax
  dsimp only
  have hc : ((255 : Nat) : Int) = 255 := by norm_num
  rw [hc]
  congr 1
  have e1 := Int.tmod_add_tdiv x 255
  have hlt : x.tmod 255 < 255 := Int.tmod_lt_of_pos x (by norm_num)
  have hgt : -255 < x.tmod 255 := tmod_gt_neg x (by norm_num)
  split <;> omega

theorem gfExp_lt (x : Int) : gfExp x < 256 := by
  rw [gfExp_eq_emod]
  exact ilogs_getD_lt _

theorem gfExp_pow3 (x : Int) : gfExp x = pow3 (x % 255).toNat := by
  rw [gfExp_eq_emod]
  apply ilogs_pow3
  have h1 : x % 255 < 255 := Int.emod_lt_of_pos x (by norm_num)
  have h2 : 0 ≤ x % 255 := Int.emod_nonneg x (by norm_num)
  omega

theorem gfExp_zero : gfExp 0 = 1 := by
  rw [gfExp_pow3]
  norm_num
  rfl

theorem emod_add_toNat (u v : Int) :
    ((u + v) % 255).toNat = ((u % 255).toNat + (v % 255).toNat) % 255 := by
  have h1 : (u + v) % 255 = (u % 255 + v % 255) % 255 := Int.add_emod u v 255
  have hu0 : 0 ≤ u % 255 := Int.emod_nonneg u (by norm_num)
  have hv0 : 0 ≤ v % 255 := Int.emod_nonneg v (by norm_num)
  have hu1 : u % 255 < 255 := Int.emod_lt_of_pos u (by norm_num)
  have hv1 : v % 255 < 255 := Int.emod_lt_of_pos v (by norm_num)
  rw [h1]
  rcases lt_or_le (u % 255 + v % 255) 255 with h | h
  · rw [Int.emod_eq_of_lt (by omega) h, Nat.mod_eq_of_lt (by omega)]
    omega
  · have h2 : (u % 255 + v % 255) % 255 = u % 255 + v % 255 - 255 := by
      omega
    have h3 : ((u % 255).toNat + (v % 255).toNat) % 255
        = (u % 255).toNat + (v % 255).toNat - 255 := by
      omega
    rw [h2, h3]
    omega

theorem gfExp_add (u v : Int) : gfExp (u + v) = gfMul (gfExp u) (gfExp v) := by
  rw [gfExp_pow3, gfExp_pow3, gfExp_pow3,
    gfMul_eq_mulRef (pow3_lt _) (pow3_lt _), ← pow3_add, emod_add_toNat, pow3_mod]

theorem gfMul_one_one : gfMul 1 1 = 1 := by
  rw [gfMul_eq_mulRef (by norm_num) (by norm_num), mulRef_one (by norm_num)]

theorem powMulInv_eq_one (a : Nat) (ha : a ≠ 0) (i : Int) : powMulInv a i = Except.ok 1 := by
  unfold powMulInv gfPow gfMax
  rw [if_neg ha, if_neg ha]
  dsimp only
  have hneg : (-i).tmod ((255 : Nat) : Int) = -(i.tmod ((255 : Nat) : Int)) := neg_tmod i _
  by_cases h0 : i.tmod ((255 : Nat) : Int) = 0
  · rw [if_pos h0, if_pos (by rw [hneg, h0, neg_zero])]
    dsimp only
    rw [gfMul_one_one]
  · rw [if_neg h0, if_neg (by rw [hneg]; intro hc; exact h0 (by omega))]
    dsimp only
    rw [hneg, show -i.tmod ((255 : Nat) : Int) * (logs.getD (a - 1) 0 : Int)
        = -(i.tmod ((255 : Nat) : Int) * (logs.getD (a - 1) 0 : Int)) by ring,
      ← gfExp_add, add_neg_cancel, gfExp_zero]

/-- C7: for every nonzero field element a and every integer i, including
negative i and i of magnitude at least 255, pow(a, i) * pow(a, -i) = GF(1). -/
theorem c7_pow_inverse : ∀ a, 1 ≤ a → a < 256 → ∀ i : Int, powMulInv a i = Except.ok 1 :=
  fun a h1 _ i => powMulInv_eq_one a (by omega) i

theorem c7_pow_inverse_witness :
    1 ≤ 3 ∧ (3 : Nat) < 256 ∧ powMulInv 3 (-1000) = Except.ok 1 :=
  ⟨by norm_num, by norm_num, c7_pow_inverse 3 (by norm_num) (by norm_num) (-1000)⟩

/-! Characterization of the first interpolate loop. -/

theorem xor_eq_zero_iff {a b : Nat} : a ^^^ b = 0 ↔ a = b := by
  constructor
  · intro h
    have h2 := congrArg (fun t => t ^^^ b) h
    simpa [Nat.xor_assoc] using h2
  · intro h
    subst h
    exact Nat.xor_self a

/-- Sum of log(s.x - destX) over a list of shares, as accumulated by the first
loop. -/
def logSum (destX : Nat) : List Share → Nat
  | [] => 0
  | s :: rest => logs.getD ((s.x ^^^ destX) - 1) 0 + logSum destX rest

theorem interpPass1_ok {m destX : Nat} :
    ∀ (ts : List Share) (a : Nat),
      (∀ s ∈ ts, s.ys.length = m) → (∀ s ∈ ts, s.x ≠ destX) →
      interpPass1 m destX ts a = .ok (.inr (a + logSum destX ts)) := by
  intro ts
  induction ts with
  | nil => intro a _ _; simp [interpPass1, logSum]
  | cons s rest ih =>
    intro a hw hx
    have hd : s.x ^^^ destX ≠ 0 := fun hc => hx s (by simp) (xor_eq_zero_iff.mp hc)
    rw [interpPass1, if_neg (by simp [hw s (by simp)]), if_neg hd, gfLog, if_neg hd]
    dsimp only
    rw [ih (a + logs.getD ((s.x ^^^ destX) - 1) 0) (fun t ht => hw t (by simp [ht]))
      (fun t ht => hx t (by simp [ht]))]
    rw [logSum]
    congr 2
    omega

theorem interpPass1_shortCircuit {m destX : Nat} :
    ∀ (ts : List Share) (a : Nat) (k : Nat) (hk : k < ts.length),
      (∀ s ∈ ts, s.ys.length = m) →
      (ts.get ⟨k, hk⟩).x = destX →
      (∀ l (hl : l < k), (ts.get ⟨l, by omega⟩).x ≠ destX) →
      interpPass1 m destX ts a = .ok (.inl (ts.get ⟨k, hk⟩)) := by
  intro ts
  induction ts with
  | nil => intro a k hk; simp at hk
  | cons s rest ih =>
    intro a k hk hw hxk hprev
    match k with
    | 0 =>
      simp only [List.get] at hxk
      rw [interpPass1, if_neg (by simp [hw s (by simp)]),
        if_pos (xor_eq_zero_iff.mpr hxk)]
      rfl
    | k + 1 =>
      have hs : s.x ≠ destX := by
        have := hprev 0 (by omega)
        simpa [List.get] using this
      have hd : s.x ^^^ destX ≠ 0 := fun hc => hs (xor_eq_zero_iff.mp hc)
      rw [interpPass1, if_neg (by simp [hw s (by simp)]), if_neg hd, gfLog, if_neg hd]
      dsimp only
      have hk' : k < rest.length := by simpa using hk
      rw [ih _ k hk' (fun t ht => hw t (by simp [ht])) (by simpa [List.get] using hxk)
        (fun l hl => by
          have := hprev (l + 1) (by omega)
          simpa [List.get] using this)]
      rfl

theorem interpPass1_mismatch {m destX : Nat} :
    ∀ (ts : List Share) (a : Nat) (k : Nat) (hk : k < ts.length),
      (ts.get ⟨k, hk⟩).ys.length ≠ m →
      (∀ l (hl : l < k), (ts.get ⟨l, by omega⟩).ys.length = m ∧
        (ts.get ⟨l, by omega⟩).x ≠ destX) →
      interpPass1 m destX ts a = .error .mismatchedShareWidth := by
  intro ts
  induction ts with
  | nil => intro a k hk; simp at hk
  | cons s rest ih =>
    intro a k hk hmis hprev
    match k with
    | 0 =>
      simp only [List.get] at hmis
      rw [interpPass1, if_pos hmis]
    | k + 1 =>
      obtain ⟨hw0, hx0⟩ := hprev 0 (by omega)
      simp only [List.get] at hw0 hx0
      have hd : s.x ^^^ destX ≠ 0 := fun hc => hx0 (xor_eq_zero_iff.mp hc)
      rw [interpPass1, if_neg (by simp [hw0]), if_neg hd, gfLog, if_neg hd]
      dsimp only
      have hk' : k < rest.length := by simpa using hk
      exact ih _ k hk' (by simpa [List.get] using hmis)
        (fun l hl => by
          have := hprev (l + 1) (by omega)
          simpa [List.get] using this)

/-! Characterization of the inner cross-term loop. -/

/-- Sum of log(s.x - t.x) over the shares t other than the one at index sIdx,
as subtracted by the inner loop when scanning from position j. -/
def innerSum (s : Share) (sIdx : Nat) : Nat → List Share → Int
  | _, [] => 0
  | j, t :: rest =>
    (if j = sIdx then 0 else (logs.getD ((s.x ^^^ t.x) - 1) 0 : Int))
      + innerSum s sIdx (j + 1) rest

theorem interpInner_ok {s : Share} {sIdx : Nat} :
    ∀ (ts : List Share) (j : Nat) (b : Int),
      (∀ k (hk : k < ts.length), j + k ≠ sIdx → (ts.get ⟨k, hk⟩).x ≠ s.x) →
      interpInner s sIdx j ts b = .ok (b - innerSum s sIdx j ts) := by
  intro ts
  induction ts with
  | nil => intro j b _; simp [interpInner, innerSum]
  | cons t rest ih =>
    intro j b hnd
    rw [interpInner]
    by_cases hj : j = sIdx
    · rw [if_pos hj, ih (j + 1) b (fun k hk hne => by
        have := hnd (k + 1) (by simpa using hk) (by omega)
        simpa [List.get] using this)]
      rw [innerSum, if_pos hj]
      congr 1
      ring
    · have hx : t.x ≠ s.x := by
        have := hnd 0 (by simp) (by omega)
        simpa [List.get] using this
      have hd : s.x ^^^ t.x ≠ 0 := fun hc => hx (xor_eq_zero_iff.mp hc).symm
      rw [if_neg hj, if_neg hd, gfLog, if_neg hd]
      dsimp only
      rw [ih (j + 1) _ (fun k hk hne => by
        have := hnd (k + 1) (by simpa using hk) (by omega)
        simpa [List.get] using this)]
      rw [innerSum, if_neg hj]
      congr 1
      ring

theorem interpInner_dup {s : Share} {sIdx : Nat} :
    ∀ (ts : List Share) (j : Nat) (b : Int),
      (∃ k, ∃ hk : k < ts.length, j + k ≠ sIdx ∧ (ts.get ⟨k, hk⟩).x = s.x) →
      interpInner s sIdx j ts b = .error .duplicateXValue := by
  intro ts
  induction ts with
  | nil =>
    intro j b h
    obtain ⟨k, hk, _⟩ := h
    simp at hk
  | cons t rest ih =>
    intro j b hdup
    rw [interpInner]
    by_cases hj : j = sIdx
    · rw [if_pos hj]
      apply ih
      obtain ⟨k, hk, hne, hxe⟩ := hdup
      match k with
      | 0 => omega
      | k + 1 =>
        exact ⟨k, by simpa using hk, by omega, by simpa [List.get] using hxe⟩
    · rw [if_neg hj]
      by_cases hd : s.x ^^^ t.x = 0
      · rw [if_pos hd]
      · rw [if_neg hd, gfLog, if_neg hd]
        dsimp only
        apply ih
        obtain ⟨k, hk, hne, hxe⟩ := hdup
        match k with
        | 0 =>
          exfalso
          simp only [List.get] at hxe
          exact hd (xor_eq_zero_iff.mpr hxe.symm)
        | k + 1 =>
          exact ⟨k, by simpa using hk, by omega, by simpa [List.get] using hxe⟩

/-! Characterization of the second interpolate loop. -/

/-- The log of the Lagrange basis coefficient computed for share s at index i:
a minus log(s.x - destX) minus the inner-loop sum. -/
def bVal (shares : List Share) (destX a : Nat) (s : Share) (i : Nat) : Int :=
  (a : Int) - (logs.getD ((s.x ^^^ destX) - 1) 0 : Int) - innerSum s i 0 shares

/-- The pure value computed by the second loop when no error occurs. -/
def pass2Val (shares : List Share) (destX a : Nat) : Nat → List Share → List Nat → List Nat
  | _, [], rys => rys
  | i, s :: rest, rys =>
    pass2Val shares destX a (i + 1) rest (addTerms (bVal shares destX a s i) s.ys rys)

theorem interpPass2_ok {shares : List Share} {destX a : Nat}
    (hx : ∀ s ∈ shares, s.x ≠ destX)
    (hdist : ∀ p q (hp : p < shares.length) (hq : q < shares.length), p ≠ q →
      (shares.get ⟨p, hp⟩).x ≠ (shares.get ⟨q, hq⟩).x) :
    ∀ (ts : List Share) (i : Nat) (rys : List Nat),
      (∀ k (hk : k < ts.length), ∃ hik : i + k < shares.length,
        ts.get ⟨k, hk⟩ = shares.get ⟨i + k, hik⟩) →
      interpPass2 shares destX a i ts rys = .ok (pass2Val shares destX a i ts rys) := by
  intro ts
  induction ts with
  | nil => intro i rys _; rfl
  | cons s rest ih =>
    intro i rys hcorr
    obtain ⟨hi, hs⟩ := hcorr 0 (by simp)
    simp only [List.get] at hs
    have hi' : i < shares.length := by omega
    have hmem : s ∈ shares := hs ▸ (shares.get_mem _ _)
    have hsd : s.x ≠ destX := hx s hmem
    have hd : s.x ^^^ destX ≠ 0 := fun hc => hsd (xor_eq_zero_iff.mp hc)
    rw [interpPass2, gfLog, if_neg hd]
    dsimp only
    rw [interpInner_ok shares 0 _ (fun k hk hne => by
      rw [hs]
      exact fun hc => hdist k i hk hi' (by omega) hc)]
    dsimp only
    rw [ih (i + 1) _ (fun k hk => by
      obtain ⟨hik, he⟩ := hcorr (k + 1) (by simpa using hk)
      refine ⟨by omega, ?_⟩
      have hidx : i + 1 + k = i + (k + 1) := by omega
      simp only [hidx]
      simpa [List.get] using he)]
    conv_rhs => rw [pass2Val]
    rfl

theorem interpPass2_dup {shares : List Share} {destX a : Nat}
    (hx : ∀ s ∈ shares, s.x ≠ destX) :
    ∀ (ts : List Share) (i : Nat) (rys : List Nat),
      (∀ k (hk : k < ts.length), ∃ hik : i + k < shares.length,
        ts.get ⟨k, hk⟩ = shares.get ⟨i + k, hik⟩) →
      i + ts.length = shares.length →
      (∃ p, i ≤ p ∧ ∃ hp : p < shares.length, ∃ q, ∃ hq : q < shares.length, q ≠ p ∧
        (shares.get ⟨q, hq⟩).x = (shares.get ⟨p, hp⟩).x) →
      interpPass2 shares destX a i ts rys = .error .duplicateXValue := by
  intro ts
  induction ts with
  | nil =>
    intro i rys _ hlen hdup
    obtain ⟨p, hip, hp, _⟩ := hdup
    simp at hlen
    omega
  | cons s rest ih =>
    intro i rys hcorr hlen hdup
    obtain ⟨hi, hs⟩ := hcorr 0 (by simp)
    simp only [List.get] at hs
    have hi' : i < shares.length := by omega
    have hmem : s ∈ shares := hs ▸ (shares.get_mem _ _)
    have hsd : s.x ≠ destX := hx s hmem
    have hd : s.x ^^^ destX ≠ 0 := fun hc => hsd (xor_eq_zero_iff.mp hc)
    rw [interpPass2, gfLog, if_neg hd]
    dsimp only
    by_cases hpart : ∃ q, ∃ hq : q < shares.length, q ≠ i ∧ (shares.get ⟨q, hq⟩).x = s.x
    · obtain ⟨q, hq, hqi, hqx⟩ := hpart
      rw [interpInner_dup shares 0 _ ⟨q, hq, by omega, hqx⟩]
    · push_neg at hpart
      rw [interpInner_ok shares 0 _ (fun k hk hne => hpart k hk (by omega))]
      dsimp only
      apply ih (i + 1) _ (fun k hk => by
        obtain ⟨hik, he⟩ := hcorr (k + 1) (by simpa using hk)
        refine ⟨by omega, ?_⟩
        have hidx : i + 1 + k = i + (k + 1) := by omega
        simp only [hidx]
        simpa [List.get] using he) (by simp at hlen ⊢; omega)
      obtain ⟨p, hip, hp, q, hq, hqp, hqx⟩ := hdup
      have hpi : p ≠ i := by
        intro hc
        subst hc
        exact hpart q hq hqp (hqx.trans (congrArg Share.x hs.symm))
      exact ⟨p, by omega, hp, q, hq, hqp, hqx⟩

/-! Top-level characterization of interpolate. -/

theorem interpolate_shortCircuit (shares : List Share) (k : Nat) (hk : k < shares.length)
    (hlen : 2 ≤ shares.length)
    (hw : ∀ s ∈ shares, s.ys.length = (shares.headD ⟨0, []⟩).ys.length)
    (hdist : ∀ p q (hp : p < shares.length) (hq : q < shares.length), p ≠ q →
      (shares.get ⟨p, hp⟩).x ≠ (shares.get ⟨q, hq⟩).x) :
    interpolate shares ((shares.get ⟨k, hk⟩).x) = .ok (shares.get ⟨k, hk⟩) := by
  rw [interpolate, if_neg (by omega)]
  dsimp only
  rw [interpPass1_shortCircuit shares 0 k hk (fun s hs => hw s hs) rfl
    (fun l hl => hdist l k (by omega) hk (by omega))]

theorem interpolate_ok (shares : List Share) (destX : Nat)
    (hlen : 2 ≤ shares.length)
    (hw : ∀ s ∈ shares, s.ys.length = (shares.headD ⟨0, []⟩).ys.length)
    (hdist : ∀ p q (hp : p < shares.length) (hq : q < shares.length), p ≠ q →
      (shares.get ⟨p, hp⟩).x ≠ (shares.get ⟨q, hq⟩).x)
    (hx : ∀ s ∈ shares, s.x ≠ destX) :
    interpolate shares destX
      = .ok ⟨destX, pass2Val shares destX (logSum destX shares) 0 shares
          (List.replicate (shares.headD ⟨0, []⟩).ys.length 0)⟩ := by
  rw [interpolate, if_neg (by omega)]
  dsimp only
  rw [interpPass1_ok shares 0 (fun s hs => hw s hs) hx]
  dsimp only
  rw [interpPass2_ok hx hdist shares 0 _ (fun j hj => ⟨by omega, by simp only [Nat.zero_add]⟩)]
  simp only [Nat.zero_add]

theorem interpolate_result (shares : List Share) (destX : Nat)
    (hlen : 2 ≤ shares.length)
    (hw : ∀ s ∈ shares, s.ys.length = (shares.headD ⟨0, []⟩).ys.length)
    (hdist : ∀ p q (hp : p < shares.length) (hq : q < shares.length), p ≠ q →
      (shares.get ⟨p, hp⟩).x ≠ (shares.get ⟨q, hq⟩).x) :
    ∃ r, interpolate shares destX = .ok r := by
  by_cases hx : ∃ k, ∃ hk : k < shares.length, (shares.get ⟨k, hk⟩).x = destX
  · obtain ⟨k, hk, hxe⟩ := hx
    exact ⟨shares.get ⟨k, hk⟩, by rw [← hxe]; exact interpolate_shortCircuit shares k hk hlen hw hdist⟩
  · push_neg at hx
    refine ⟨_, interpolate_ok shares destX hlen hw hdist ?_⟩
    intro s hs hc
    obtain ⟨k, hkx⟩ := List.mem_iff_get.mp hs
    exact hx k.1 k.2 (by rw [hkx]; exact hc)

theorem interpolate_dup (shares : List Share) (destX : Nat)
    (hlen : 2 ≤ shares.length)
    (hw : ∀ s ∈ shares, s.ys.length = (shares.headD ⟨0, []⟩).ys.length)
    (hx : ∀ s ∈ shares, s.x ≠ destX)
    (hdup : ∃ p, ∃ hp : p < shares.length, ∃ q, ∃ hq : q < shares.length, p ≠ q ∧
      (shares.get ⟨p, hp⟩).x = (shares.get ⟨q, hq⟩).x) :
    interpolate shares destX = .error .duplicateXValue := by
  rw [interpolate, if_neg (by omega)]
  dsimp only
  rw [interpPass1_ok shares 0 (fun s hs => hw s hs) hx]
  dsimp only
  rw [interpPass2_dup hx shares 0 _ (fun j hj => ⟨by omega, by simp only [Nat.zero_add]⟩)
    (by omega)]
  obtain ⟨p, hp, q, hq, hpq, hpx⟩ := hdup
  exact ⟨p, by omega, hp, q, hq, fun hc => hpq hc.symm, hpx.symm⟩

theorem distinct_of_pairwise {l : List Share} (h : l.Pairwise (fun a b => a.x ≠ b.x)) :
    ∀ p q (hp : p < l.length) (hq : q < l.length), p ≠ q →
      (l.get ⟨p, hp⟩).x ≠ (l.get ⟨q, hq⟩).x := by
  intro p q hp hq hne
  rw [List.pairwise_iff_get] at h
  rcases Nat.lt_or_ge p q with hlt | hge
  · exact h ⟨p, hp⟩ ⟨q, hq⟩ hlt
  · have hlt : q < p := by omega
    exact (h ⟨q, hq⟩ ⟨p, hp⟩ hlt).symm

/-- C3 counterexample: three shares where the third has a different width, with
the destination equal to the second share's x: the short-circuit returns before
the width mismatch is detected, so interpolate does not fail. -/
theorem c3_counterexample :
    interpolate [⟨1, [0]⟩, ⟨2, [0]⟩, ⟨3, [0, 0]⟩] 2
      ≠ Except.error GFError.mismatchedShareWidth := by
  rw [show interpolate [⟨1, [0]⟩, ⟨2, [0]⟩, ⟨3, [0, 0]⟩] 2 = Except.ok ⟨2, [0]⟩ from rfl]
  simp

/-- C3 (amended): if some share's ys length differs from the first share's ys
length, and every share before the first such mismatch has the first share's
width and an x different from the destination, then interpolate fails with
MismatchedShareWidth. -/
theorem c3_mismatched_width :
    ∀ (shares : List Share) (destX : Nat) (k : Nat) (hk : k < shares.length),
      2 ≤ shares.length →
      (shares.get ⟨k, hk⟩).ys.length ≠ (shares.headD ⟨0, []⟩).ys.length →
      (∀ l (hl : l < k), (shares.get ⟨l, by omega⟩).ys.length
          = (shares.headD ⟨0, []⟩).ys.length ∧
        (shares.get ⟨l, by omega⟩).x ≠ destX) →
      interpolate shares destX = .error .mismatchedShareWidth := by
  intro shares destX k hk hlen hmis hprev
  rw [interpolate, if_neg (by omega)]
  dsimp only
  rw [interpPass1_mismatch shares 0 k hk hmis hprev]

theorem c3_mismatched_width_witness :
    (2 : Nat) ≤ 3 ∧
    (([⟨1, [0]⟩, ⟨2, [0]⟩, ⟨3, [0, 0]⟩] : List Share).get ⟨2, by norm_num⟩).ys.length
      ≠ (([⟨1, [0]⟩, ⟨2, [0]⟩, ⟨3, [0, 0]⟩] : List Share).headD ⟨0, []⟩).ys.length ∧
    interpolate [⟨1, [0]⟩, ⟨2, [0]⟩, ⟨3, [0, 0]⟩] 7 = .error .mismatchedShareWidth :=
  ⟨by norm_num, by decide,
    c3_mismatched_width [⟨1, [0]⟩, ⟨2, [0]⟩, ⟨3, [0, 0]⟩] 7 2 (by norm_num) (by norm_num)
      (by decide) (by decide)⟩

/-- C5: with at least two shares of pairwise distinct x and equal widths, and a
destination equal to the x of the share at index k, interpolate returns that
share verbatim. -/
theorem c5_short_circuit :
    ∀ (shares : List Share) (k : Nat) (hk : k < shares.length),
      2 ≤ shares.length →
      (∀ s ∈ shares, s.ys.length = (shares.headD ⟨0, []⟩).ys.length) →
      (∀ p q (hp : p < shares.length) (hq : q < shares.length), p ≠ q →
        (shares.get ⟨p, hp⟩).x ≠ (shares.get ⟨q, hq⟩).x) →
      interpolate shares ((shares.get ⟨k, hk⟩).x) = .ok (shares.get ⟨k, hk⟩) :=
  fun shares k hk hlen hw hdist => interpolate_shortCircuit shares k hk hlen hw hdist

theorem c5_short_circuit_witness :
    interpolate [⟨1, [5]⟩, ⟨2, [9]⟩] ((([⟨1, [5]⟩, ⟨2, [9]⟩] : List Share).get
        ⟨1, by norm_num⟩).x)
      = .ok (([⟨1, [5]⟩, ⟨2, [9]⟩] : List Share).get ⟨1, by norm_num⟩) :=
  c5_short_circuit [⟨1, [5]⟩, ⟨2, [9]⟩] 1 (by norm_num) (by norm_num) (by decide)
    (distinct_of_pairwise (by decide))

/-- C6: with at least two shares of equal widths, no share's x equal to the
destination, and two shares sharing an x, interpolate fails with
DuplicateXValue. -/
theorem c6_duplicate_x :
    ∀ (shares : List Share) (destX : Nat),
      2 ≤ shares.length →
      (∀ s ∈ shares, s.ys.length = (shares.headD ⟨0, []⟩).ys.length) →
      (∀ s ∈ shares, s.x ≠ destX) →
      (∃ p, ∃ hp : p < shares.length, ∃ q, ∃ hq : q < shares.length, p ≠ q ∧
        (shares.get ⟨p, hp⟩).x = (shares.get ⟨q, hq⟩).x) →
      interpolate shares destX = .error .duplicateXValue :=
  fun shares destX hlen hw hx hdup => interpolate_dup shares destX hlen hw hx hdup

theorem c6_duplicate_x_witness :
    interpolate [⟨1, [5]⟩, ⟨1, [9]⟩] 3 = .error .duplicateXValue :=
  c6_duplicate_x [⟨1, [5]⟩, ⟨1, [9]⟩] 3 (by norm_num) (by decide) (by decide)
    ⟨0, by norm_num, 1, by norm_num, by norm_num, by decide⟩

/-- C10: under the preconditions of interpolate (at least two shares, pairwise
distinct x values, equal widths), interpolate never fails with LogOfZero, even
when y values are zero. -/
theorem c10_no_log_of_zero :
    ∀ (shares : List Share) (destX : Nat),
      2 ≤ shares.length →
      (∀ s ∈ shares, s.ys.length = (shares.headD ⟨0, []⟩).ys.length) →
      (∀ p q (hp : p < shares.length) (hq : q < shares.length), p ≠ q →
        (shares.get ⟨p, hp⟩).x ≠ (shares.get ⟨q, hq⟩).x) →
      interpolate shares destX ≠ .error .logOfZero := by
  intro shares destX hlen hw hdist
  obtain ⟨r, hr⟩ := interpolate_result shares destX hlen hw hdist
  rw [hr]
  simp

theorem c10_no_log_of_zero_witness :
    interpolate [⟨1, [0]⟩, ⟨2, [0]⟩] 5 ≠ .error .logOfZero :=
  c10_no_log_of_zero [⟨1, [0]⟩, ⟨2, [0]⟩] 5 (by norm_num) (by decide)
    (distinct_of_pairwise (by decide))

/-! The field GF(256): bytes with xor as addition and the table-based gfMul as
multiplication. The field axioms follow from the reference-multiplication
development above. -/

theorem gfMul_lt (a b : Nat) : gfMul a b < 256 := by
  rw [gfMul]
  split
  · norm_num
  · exact ilogs_getD_lt _

theorem gfMul_zero_left (b : Nat) : gfMul 0 b = 0 := by
  rw [gfMul, if_pos (Or.inl rfl)]

theorem gfMul_zero_right (a : Nat) : gfMul a 0 = 0 := by
  rw [gfMul, if_pos (Or.inr rfl)]

theorem gfMul_comm {a b : Nat} (ha : a < 256) (hb : b < 256) : gfMul a b = gfMul b a := by
  rw [gfMul_eq_mulRef ha hb, gfMul_eq_mulRef hb ha, mulRef_comm ha hb]

theorem gfMul_assoc {a b c : Nat} (ha : a < 256) (hb : b < 256) (hc : c < 256) :
    gfMul (gfMul a b) c = gfMul a (gfMul b c) := by
  rw [gfMul_eq_mulRef ha hb, gfMul_eq_mulRef (mulRef_lt ha) hc,
    gfMul_eq_mulRef hb hc, gfMul_eq_mulRef ha (mulRef_lt hb), mulRef_assoc ha hb hc]

theorem gfMul_one {a : Nat} (ha : a < 256) : gfMul a 1 = a := by
  rw [gfMul_eq_mulRef ha (by norm_num), mulRef_one ha]

theorem gfMul_distrib {a b c : Nat} (ha : a < 256) (hb : b < 256) (hc : c < 256) :
    gfMul a (b ^^^ c) = gfMul a b ^^^ gfMul a c := by
  rw [gfMul_eq_mulRef ha (Nat.xor_lt_two_pow (n := 8) hb hc), gfMul_eq_mulRef ha hb,
    gfMul_eq_mulRef ha hc, mulRef_distrib ha hb hc]

/-- Multiplicative inverse in the field, realized through the tables; the C++
code reaches it through division or pow with a negative exponent. -/
def gfInv (a : Nat) : Nat :=
  if a = 0 then 0 else ilogs.getD ((255 - logs.getD (a - 1) 0) % 255) 0

theorem gfInv_lt (a : Nat) : gfInv a < 256 := by
  rw [gfInv]
  split
  · norm_num
  · exact ilogs_getD_lt _

theorem gfMul_inv_cancel {a : Nat} (ha : a ≠ 0) (ha2 : a < 256) : gfMul a (gfInv a) = 1 := by
  rw [gfInv, if_neg ha]
  have hla := logs_getD_lt (a - 1)
  have hidx : (255 - logs.getD (a - 1) 0) % 255 < 255 := Nat.mod_lt _ (by norm_num)
  have hnz : ilogs.getD ((255 - logs.getD (a - 1) 0) % 255) 0 ≠ 0 := by
    have := ilogs_getD_pos _ hidx
    omega
  rw [gfMul_eq_mod ha hnz, logs_ilogs _ hidx]
  have h0 : (logs.getD (a - 1) 0 + (255 - logs.getD (a - 1) 0) % 255) % 255 = 0 := by
    by_cases hz : logs.getD (a - 1) 0 = 0
    · rw [hz]
    · have h1 : (255 - logs.getD (a - 1) 0) % 255 = 255 - logs.getD (a - 1) 0 :=
        Nat.mod_eq_of_lt (by omega)
      rw [h1, show logs.getD (a - 1) 0 + (255 - logs.getD (a - 1) 0) = 255 by omega]
    
  rw [h0]
  rfl

/-- The field with 256 elements, as computed by the code: a byte value. -/
abbrev GF256 := {n : Nat // n < 256}

theorem xor_lt_256 {a b : Nat} (ha : a < 256) (hb : b < 256) : a ^^^ b < 256 :=
  Nat.xor_lt_two_pow (n := 8) ha hb

instance : Zero GF256 := ⟨⟨0, by norm_num⟩⟩

instance : One GF256 := ⟨⟨1, by norm_num⟩⟩

instance : Add GF256 := ⟨fun a b => ⟨a.val ^^^ b.val, xor_lt_256 a.2 b.2⟩⟩

instance : Mul GF256 := ⟨fun a b => ⟨gfMul a.val b.val, gfMul_lt _ _⟩⟩

instance : Neg GF256 := ⟨fun a => a⟩

instance : Inv GF256 := ⟨fun a => ⟨gfInv a.val, gfInv_lt _⟩⟩

theorem GF256.val_add (a b : GF256) : (a + b).val = a.val ^^^ b.val := rfl

theorem GF256.val_mul (a b : GF256) : (a * b).val = gfMul a.val b.val := rfl

theorem GF256.val_zero : (0 : GF256).val = 0 := rfl

theorem GF256.val_one : (1 : GF256).val = 1 := rfl

instance : CommRing GF256 where
  nsmul := nsmulRec
  zsmul := zsmulRec
  add_assoc a b c := Subtype.ext (by
    simp only [GF256.val_add, Nat.xor_assoc])
  zero_add a := Subtype.ext (by simp only [GF256.val_add, GF256.val_zero, Nat.zero_xor])
  add_zero a := Subtype.ext (by simp only [GF256.val_add, GF256.val_zero, Nat.xor_zero])
  add_comm a b := Subtype.ext (by simp only [GF256.val_add, Nat.xor_comm])
  mul_assoc a b c := Subtype.ext (by
    simp only [GF256.val_mul]
    exact gfMul_assoc a.2 b.2 c.2)
  one_mul a := Subtype.ext (by
    simp only [GF256.val_mul, GF256.val_one]
    rw [gfMul_comm (by norm_num) a.2, gfMul_one a.2])
  mul_one a := Subtype.ext (by
    simp only [GF256.val_mul, GF256.val_one]
    exact gfMul_one a.2)
  mul_comm a b := Subtype.ext (by
    simp only [GF256.val_mul]
    exact gfMul_comm a.2 b.2)
  left_distrib a b c := Subtype.ext (by
    simp only [GF256.val_mul, GF256.val_add]
    exact gfMul_distrib a.2 b.2 c.2)
  right_distrib a b c := Subtype.ext (by
    simp only [GF256.val_mul, GF256.val_add]
    rw [gfMul_comm (xor_lt_256 a.2 b.2) c.2, gfMul_comm a.2 c.2, gfMul_comm b.2 c.2]
    exact gfMul_distrib c.2 a.2 b.2)
  zero_mul a := Subtype.ext (by
    simp only [GF256.val_mul, GF256.val_zero]
    exact gfMul_zero_left a.val)
  mul_zero a := Subtype.ext (by
    simp only [GF256.val_mul, GF256.val_zero]
    exact gfMul_zero_right a.val)
  neg_add_cancel a := Subtype.ext (by
    show a.val ^^^ a.val = 0
    exact Nat.xor_self a.val)

instance : Field GF256 where
  exists_pair_ne := ⟨0, 1, fun hc => by
    have := congrArg Subtype.val hc
    simp [GF256.val_zero, GF256.val_one] at this⟩
  mul_inv_cancel a ha := Subtype.ext (by
    show gfMul a.val (gfInv a.val) = 1
    exact gfMul_inv_cancel (fun hc => ha (Subtype.ext hc)) a.2)
  inv_zero := Subtype.ext (by show gfInv 0 = 0; rw [gfInv, if_pos rfl])
  nnqsmul := _
  qsmul := _

/-! From the accumulation loop to an elementwise xor of terms. -/

theorem addTerms_length (b : Int) (ys rys : List Nat) :
    (addTerms b ys rys).length = min ys.length rys.length := by
  rw [addTerms, List.length_zipWith]

theorem addTerms_getD : ∀ (ys rys : List Nat) (j : Nat) (b : Int), j < ys.length →
    j < rys.length →
    (addTerms b ys rys).getD j 0
      = rys.getD j 0 ^^^
        (if ys.getD j 0 ≠ 0 then gfExp (b + (logs.getD ((ys.getD j 0) - 1) 0 : Int))
          else 0) := by
  intro ys
  induction ys with
  | nil => intro rys j b hy; simp at hy
  | cons y ys ih =>
    intro rys j b hy hr
    match rys with
    | [] => simp at hr
    | r :: rys =>
      match j with
      | 0 =>
        simp only [addTerms, List.zipWith_cons_cons, List.getD_cons_zero]
        split
        · rfl
        · rw [Nat.xor_zero]
      | j + 1 =>
        simp only [addTerms, List.zipWith_cons_cons, List.getD_cons_succ]
        exact ih rys j b (by simpa using hy) (by simpa using hr)

/-- The term contributed by share s at position i for result column j. -/
def termVal (shares : List Share) (destX a : Nat) (s : Share) (i j : Nat) : Nat :=
  if s.ys.getD j 0 ≠ 0 then
    gfExp (bVal shares destX a s i + (logs.getD ((s.ys.getD j 0) - 1) 0 : Int))
  else 0

/-- Xor of the terms of the shares from position i on, for result column j. -/
def xorTerms (shares : List Share) (destX a j : Nat) : Nat → List Share → Nat
  | _, [] => 0
  | i, s :: rest => termVal shares destX a s i j ^^^ xorTerms shares destX a j (i + 1) rest

theorem pass2Val_length {shares : List Share} {destX a : Nat} :
    ∀ (ts : List Share) (i : Nat) (rys : List Nat),
      (∀ s ∈ ts, s.ys.length = rys.length) →
      (pass2Val shares destX a i ts rys).length = rys.length := by
  intro ts
  induction ts with
  | nil => intro i rys _; rfl
  | cons s rest ih =>
    intro i rys hw
    rw [pass2Val, ih _ _ (fun t ht => by
      rw [addTerms_length, hw s (by simp), Nat.min_self, hw t (by simp [ht])]),
      addTerms_length, hw s (by simp), Nat.min_self]

theorem pass2Val_getD {shares : List Share} {destX a : Nat} :
    ∀ (ts : List Share) (i : Nat) (rys : List Nat) (j : Nat),
      (∀ s ∈ ts, s.ys.length = rys.length) → j < rys.length →
      (pass2Val shares destX a i ts rys).getD j 0
        = rys.getD j 0 ^^^ xorTerms shares destX a j i ts := by
  intro ts
  induction ts with
  | nil => intro i rys j _ _; rw [pass2Val, xorTerms, Nat.xor_zero]
  | cons s rest ih =>
    intro i rys j hw hj
    have hlen : (addTerms (bVal shares destX a s i) s.ys rys).length = rys.length := by
      rw [addTerms_length, hw s (by simp), Nat.min_self]
    rw [pass2Val, ih _ _ j (fun t ht => by rw [hlen, hw t (by simp [ht])]) (by omega),
      addTerms_getD s.ys rys j _ (by rw [hw s (by simp)]; omega) hj, xorTerms]
    show _ = rys.getD j 0 ^^^ (termVal shares destX a s i j ^^^ _)
    rw [termVal, Nat.xor_assoc]

/-! Field-level reading of the log-domain computation. -/

/-- The generator power gfExp as an element of GF256. -/
def expGF (b : Int) : GF256 := ⟨gfExp b, gfExp_lt b⟩

theorem expGF_add (u v : Int) : expGF (u + v) = expGF u * expGF v :=
  Subtype.ext (gfExp_add u v)

theorem expGF_zero : expGF 0 = 1 := Subtype.ext gfExp_zero

theorem expGF_neg (u : Int) : expGF (-u) = (expGF u)⁻¹ := by
  have h : expGF u * expGF (-u) = 1 := by
    rw [← expGF_add, add_neg_cancel, expGF_zero]
  exact eq_inv_of_mul_eq_one_right h

theorem expGF_log {d : GF256} (hd : d ≠ 0) :
    expGF ((logs.getD (d.val - 1) 0 : Int)) = d := by
  have hv : d.val ≠ 0 := fun hc => hd (Subtype.ext hc)
  have hl : logs.getD (d.val - 1) 0 < 255 := logs_getD_lt _
  apply Subtype.ext
  show gfExp _ = d.val
  rw [gfExp_eq_emod, Int.emod_eq_of_lt (by positivity) (by exact_mod_cast hl),
    Int.toNat_natCast, ilogs_logs (d.val - 1) (by omega)]
  omega

theorem expGF_sum (t : Finset ℕ) (f : ℕ → Int) :
    expGF (∑ k ∈ t, f k) = ∏ k ∈ t, expGF (f k) := by
  induction t using Finset.induction_on with
  | empty => simpa using expGF_zero
  | insert hnotmem ih =>
    rw [Finset.sum_insert hnotmem, Finset.prod_insert hnotmem, expGF_add]
    congr 1

/-- The default share used for out-of-range list access. -/
def dShare : Share := ⟨0, []⟩

theorem logSum_eq (destX : Nat) :
    ∀ ts : List Share,
      (logSum destX ts : Int)
        = ∑ k ∈ Finset.range ts.length,
            (logs.getD (((ts.getD k dShare).x ^^^ destX) - 1) 0 : Int) := by
  intro ts
  induction ts with
  | nil => simp [logSum]
  | cons s rest ih =>
    rw [logSum, List.length_cons, Finset.sum_range_succ']
    push_cast [ih]
    simp only [List.getD_cons_succ, List.getD_cons_zero]
    ring

theorem innerSum_eq (s : Share) (sIdx : Nat) :
    ∀ (ts : List Share) (j : Nat),
      innerSum s sIdx j ts
        = ∑ k ∈ Finset.range ts.length,
            if j + k = sIdx then 0
            else (logs.getD ((s.x ^^^ (ts.getD k dShare).x) - 1) 0 : Int) := by
  intro ts
  induction ts with
  | nil => simp [innerSum]
  | cons t rest ih =>
    intro j
    rw [innerSum, List.length_cons, Finset.sum_range_succ', ih (j + 1)]
    simp only [List.getD_cons_succ, List.getD_cons_zero, Nat.add_zero]
    rw [add_comm]
    congr 1
    apply Finset.sum_congr rfl
    intro k _
    exact if_congr (by constructor <;> intro h <;> omega) rfl rfl

theorem termVal_lt (shares : List Share) (destX a : Nat) (s : Share) (i j : Nat) :
    termVal shares destX a s i j < 256 := by
  rw [termVal]
  split
  · exact gfExp_lt _
  · norm_num

/-- The term of share s in column j, as a field element. -/
def termGF (shares : List Share) (destX a : Nat) (s : Share) (i j : Nat) : GF256 :=
  ⟨termVal shares destX a s i j, termVal_lt shares destX a s i j⟩

theorem termGF_eq {shares : List Share} {destX a : Nat} {s : Share} {i j : Nat} {y : GF256}
    (hy : s.ys.getD j 0 = y.val) :
    termGF shares destX a s i j = y * expGF (bVal shares destX a s i) := by
  apply Subtype.ext
  show termVal shares destX a s i j = gfMul y.val (gfExp (bVal shares destX a s i))
  rw [termVal, hy]
  by_cases hz : y = 0
  · subst hz
    rw [if_neg (by simp [GF256.val_zero]), GF256.val_zero, gfMul_zero_left]
  · have hv : y.val ≠ 0 := fun hc => hz (Subtype.ext hc)
    rw [if_pos hv, gfExp_add, gfMul_comm (gfExp_lt _) (gfExp_lt _)]
    congr 1
    exact congrArg Subtype.val (expGF_log hz)

theorem xorTerms_lt (shares : List Share) (destX a j : Nat) :
    ∀ (ts : List Share) (i : Nat), xorTerms shares destX a j i ts < 256 := by
  intro ts
  induction ts with
  | nil => intro i; rw [xorTerms]; norm_num
  | cons s rest ih =>
    intro i
    rw [xorTerms]
    exact xor_lt_256 (termVal_lt _ _ _ _ _ _) (ih (i + 1))

theorem xorTerms_eq {shares : List Share} {destX a j : Nat} :
    ∀ (ts : List Share) (i : Nat),
      (⟨xorTerms shares destX a j i ts, xorTerms_lt shares destX a j ts i⟩ : GF256)
        = ∑ k ∈ Finset.range ts.length, termGF shares destX a (ts.getD k dShare) (i + k) j := by
  intro ts
  induction ts with
  | nil => intro i; simp; rfl
  | cons s rest ih =>
    intro i
    rw [List.length_cons, Finset.sum_range_succ']
    have hhead : termGF shares destX a ((s :: rest).getD 0 dShare) (i + 0) j
        = termGF shares destX a s i j := by
      simp only [List.getD_cons_zero, Nat.add_zero]
    rw [hhead]
    have htail : ∑ k ∈ Finset.range rest.length,
        termGF shares destX a ((s :: rest).getD (k + 1) dShare) (i + (k + 1)) j
        = ∑ k ∈ Finset.range rest.length,
            termGF shares destX a (rest.getD k dShare) (i + 1 + k) j := by
      apply Finset.sum_congr rfl
      intro k _
      simp only [List.getD_cons_succ]
      congr 1
      omega
    rw [htail, ← ih (i + 1), add_comm]
    apply Subtype.ext
    rw [GF256.val_add]
    rfl

theorem GF256.val_sub (a b : GF256) : (a - b).val = a.val ^^^ b.val := rfl

theorem getD_map_lt {α β : Type} (f : α → β) :
    ∀ (l : List α) (j : Nat), j < l.length → ∀ (d : α) (d' : β),
      (l.map f).getD j d' = f (l.getD j d) := by
  intro l
  induction l with
  | nil => intro j hj; simp at hj
  | cons x l ih =>
    intro j hj d d'
    match j with
    | 0 => simp
    | j + 1 =>
      simp only [List.map_cons, List.getD_cons_succ]
      exact ih j (by simpa using hj) d d'

theorem GF256.sub_comm (a b : GF256) : a - b = b - a :=
  Subtype.ext (by rw [GF256.val_sub, GF256.val_sub, Nat.xor_comm])

theorem GF256.sub_ne_zero {a b : GF256} (h : a ≠ b) : a - b ≠ 0 := by
  intro hc
  exact h (by rwa [sub_eq_zero] at hc)

/-- The shares built from a list of x values and a family of polynomials: the
share of x carries the evaluations of all the polynomials at x. -/
def mkShares (xs : List GF256) (ps : List (Polynomial GF256)) : List Share :=
  xs.map (fun x => ⟨x.val, ps.map (fun p => (p.eval x).val)⟩)

theorem mkShares_length (xs : List GF256) (ps : List (Polynomial GF256)) :
    (mkShares xs ps).length = xs.length := by
  rw [mkShares, List.length_map]

theorem mkShares_getD {xs : List GF256} {ps : List (Polynomial GF256)} {k : Nat}
    (hk : k < xs.length) :
    (mkShares xs ps).getD k dShare
      = ⟨(xs.getD k 0).val, ps.map (fun p => (p.eval (xs.getD k 0)).val)⟩ := by
  rw [mkShares, getD_map_lt _ xs k hk 0 dShare]

theorem mkShares_get {xs : List GF256} {ps : List (Polynomial GF256)} {k : Nat}
    (hk : k < (mkShares xs ps).length) :
    (mkShares xs ps).get ⟨k, hk⟩
      = ⟨(xs.getD k 0).val, ps.map (fun p => (p.eval (xs.getD k 0)).val)⟩ := by
  have hk' : k < xs.length := by rwa [mkShares_length] at hk
  rw [← @mkShares_getD xs ps k hk', List.getD_eq_getElem?_getD, List.getElem?_eq_getElem hk,
    Option.getD_some, List.get_eq_getElem]

theorem mkShares_mem {xs : List GF256} {ps : List (Polynomial GF256)} {s : Share}
    (hs : s ∈ mkShares xs ps) :
    ∃ x ∈ xs, s = ⟨x.val, ps.map (fun p => (p.eval x).val)⟩ := by
  rw [mkShares, List.mem_map] at hs
  obtain ⟨x, hx, he⟩ := hs
  exact ⟨x, hx, he.symm⟩

theorem expGF_bVal {xs : List GF256} {ps : List (Polynomial GF256)} {d : GF256} {k : Nat}
    (hk : k < xs.length)
    (hinj : ∀ p q, p < xs.length → q < xs.length → p ≠ q → xs.getD p 0 ≠ xs.getD q 0)
    (hd : ∀ t, t < xs.length → xs.getD t 0 ≠ d) :
    expGF (bVal (mkShares xs ps) d.val (logSum d.val (mkShares xs ps))
        ((mkShares xs ps).getD k dShare) k)
      = (∏ t ∈ (Finset.range xs.length).erase k, (xs.getD t 0 - d))
        * (∏ t ∈ (Finset.range xs.length).erase k, (xs.getD k 0 - xs.getD t 0))⁻¹ := by
  have hA : ((logSum d.val (mkShares xs ps) : Nat) : Int)
      = ∑ t ∈ Finset.range xs.length,
          (logs.getD (((xs.getD t 0 - d).val) - 1) 0 : Int) := by
    rw [logSum_eq, mkShares_length]
    apply Finset.sum_congr rfl
    intro t ht
    rw [mkShares_getD (Finset.mem_range.mp ht), GF256.val_sub]
  have hC : innerSum ((mkShares xs ps).getD k dShare) k 0 (mkShares xs ps)
      = ∑ t ∈ Finset.range xs.length,
          if t = k then 0
          else (logs.getD (((xs.getD k 0 - xs.getD t 0).val) - 1) 0 : Int) := by
    rw [innerSum_eq, mkShares_length]
    apply Finset.sum_congr rfl
    intro t ht
    refine if_congr (by omega) rfl ?_
    rw [mkShares_getD (Finset.mem_range.mp ht), mkShares_getD hk, GF256.val_sub]
  have hB : (((mkShares xs ps).getD k dShare).x ^^^ d.val) = (xs.getD k 0 - d).val := by
    rw [mkShares_getD hk, GF256.val_sub]
  rw [bVal, hB, hA, hC,
    show (∑ t ∈ Finset.range xs.length,
          (logs.getD (((xs.getD t 0 - d).val) - 1) 0 : Int))
        - (logs.getD (((xs.getD k 0 - d).val) - 1) 0 : Int)
        - (∑ t ∈ Finset.range xs.length,
            if t = k then 0
            else (logs.getD (((xs.getD k 0 - xs.getD t 0).val) - 1) 0 : Int))
      = (∑ t ∈ Finset.range xs.length,
          (logs.getD (((xs.getD t 0 - d).val) - 1) 0 : Int))
        + (-(logs.getD (((xs.getD k 0 - d).val) - 1) 0 : Int))
        + (-(∑ t ∈ Finset.range xs.length,
            if t = k then 0
            else (logs.getD (((xs.getD k 0 - xs.getD t 0).val) - 1) 0 : Int))) by ring,
    expGF_add, expGF_add, expGF_neg, expGF_neg, expGF_sum, expGF_sum]
  have hprodA : ∏ t ∈ Finset.range xs.length,
      expGF ((logs.getD (((xs.getD t 0 - d).val) - 1) 0 : Int))
      = ∏ t ∈ Finset.range xs.length, (xs.getD t 0 - d) := by
    apply Finset.prod_congr rfl
    intro t ht
    exact expGF_log (GF256.sub_ne_zero (hd t (Finset.mem_range.mp ht)))
  have hlogB : expGF ((logs.getD (((xs.getD k 0 - d).val) - 1) 0 : Int)) = xs.getD k 0 - d :=
    expGF_log (GF256.sub_ne_zero (hd k hk))
  have hprodC : ∏ t ∈ Finset.range xs.length,
      expGF (if t = k then 0
        else (logs.getD (((xs.getD k 0 - xs.getD t 0).val) - 1) 0 : Int))
      = ∏ t ∈ (Finset.range xs.length).erase k, (xs.getD k 0 - xs.getD t 0) := by
    rw [← Finset.mul_prod_erase (Finset.range xs.length) _ (Finset.mem_range.mpr hk),
      if_pos rfl, expGF_zero, one_mul]
    apply Finset.prod_congr rfl
    intro t ht
    obtain ⟨htk, htr⟩ := Finset.mem_erase.mp ht
    rw [if_neg htk]
    exact expGF_log (GF256.sub_ne_zero
      (hinj k t hk (Finset.mem_range.mp htr) (fun hc => htk (hc.symm))))
  rw [hprodA, hlogB, hprodC,
    ← Finset.mul_prod_erase (Finset.range xs.length) _ (Finset.mem_range.mpr hk)]
  have hne : xs.getD k 0 - d ≠ 0 := GF256.sub_ne_zero (hd k hk)
  congr 1
  rw [mul_comm (xs.getD k 0 - d) _, mul_assoc, mul_inv_cancel₀ hne, mul_one]

open Polynomial Lagrange in
theorem eval_basis_form {n : Nat} (v : ℕ → GF256) (k : Nat) (d : GF256) :
    Polynomial.eval d (Lagrange.basis (Finset.range n) v k)
      = (∏ t ∈ (Finset.range n).erase k, (v t - d))
        * (∏ t ∈ (Finset.range n).erase k, (v k - v t))⁻¹ := by
  rw [Lagrange.basis, Polynomial.eval_prod]
  have hfac : ∀ t ∈ (Finset.range n).erase k,
      Polynomial.eval d (basisDivisor (v k) (v t)) = (v k - v t)⁻¹ * (v t - d) := by
    intro t _
    rw [basisDivisor, Polynomial.eval_mul, Polynomial.eval_C, Polynomial.eval_sub,
      Polynomial.eval_X, Polynomial.eval_C, GF256.sub_comm d (v t)]
  rw [Finset.prod_congr rfl hfac, Finset.prod_mul_distrib, Finset.prod_inv_distrib]
  ring

open Polynomial Lagrange in
theorem eval_eq_sum_terms {n : Nat} (v : ℕ → GF256) (hinj : Set.InjOn v (Finset.range n))
    (p : Polynomial GF256) (hdeg : p.degree < n) (d : GF256) :
    p.eval d = ∑ k ∈ Finset.range n, (p.eval (v k))
      * ((∏ t ∈ (Finset.range n).erase k, (v t - d))
        * (∏ t ∈ (Finset.range n).erase k, (v k - v t))⁻¹) := by
  have hdeg' : p.degree < (Finset.range n).card := by rwa [Finset.card_range]
  have hp := Lagrange.eq_interpolate hinj hdeg'
  conv_lhs => rw [hp]
  rw [Lagrange.interpolate_apply, Polynomial.eval_finset_sum]
  apply Finset.sum_congr rfl
  intro k _
  rw [Polynomial.eval_mul, Polynomial.eval_C, eval_basis_form]

theorem getD_lt_eq_get {α : Type} {l : List α} {p : Nat} (hp : p < l.length) (d : α) :
    l.getD p d = l.get ⟨p, hp⟩ := by
  rw [List.getD_eq_getElem?_getD, List.getElem?_eq_getElem hp, Option.getD_some,
    List.get_eq_getElem]

theorem mkShares_headD {xs : List GF256} {ps : List (Polynomial GF256)} (h : xs ≠ []) :
    ((mkShares xs ps).headD (⟨0, []⟩ : Share)).ys.length = ps.length := by
  match xs with
  | [] => exact absurd rfl h
  | x :: xs => simp [mkShares]

theorem getElem_eq_getD {α : Type} {l : List α} {j : Nat} (h : j < l.length) (d : α) :
    l[j] = l.getD j d := by
  rw [getD_lt_eq_get h d, List.get_eq_getElem]

theorem getD_replicate_zero (n j : Nat) : (List.replicate n (0 : Nat)).getD j 0 = 0 := by
  by_cases hj : j < n
  · rw [getD_lt_eq_get (by simpa using hj), List.get_eq_getElem, List.getElem_replicate]
  · rw [List.getD_eq_getElem?_getD, List.getElem?_eq_none (by simpa using hj)]
    rfl

theorem pass2Val_col {xs : List GF256} {ps : List (Polynomial GF256)} {d : GF256} {j : Nat}
    (hj : j < ps.length)
    (hinjD : ∀ p q, p < xs.length → q < xs.length → p ≠ q → xs.getD p 0 ≠ xs.getD q 0)
    (hd : ∀ t, t < xs.length → xs.getD t 0 ≠ d)
    (hdeg : ∀ p ∈ ps, p.degree < (xs.length : ℕ)) :
    (pass2Val (mkShares xs ps) d.val (logSum d.val (mkShares xs ps)) 0 (mkShares xs ps)
        (List.replicate ps.length 0)).getD j 0
      = ((ps.getD j 0).eval d).val := by
  have hwrep : ∀ s ∈ mkShares xs ps,
      s.ys.length = (List.replicate ps.length (0 : Nat)).length := by
    intro s hs
    obtain ⟨x, _, he⟩ := mkShares_mem hs
    rw [he, List.length_replicate]
    simp
  rw [pass2Val_getD (mkShares xs ps) 0 _ j hwrep (by simpa using hj), getD_replicate_zero,
    Nat.zero_xor]
  have hxt := congrArg Subtype.val (@xorTerms_eq (mkShares xs ps) d.val
    (logSum d.val (mkShares xs ps)) j (mkShares xs ps) 0)
  rw [show (⟨xorTerms (mkShares xs ps) d.val (logSum d.val (mkShares xs ps)) j 0
        (mkShares xs ps), xorTerms_lt _ _ _ _ _ _⟩ : GF256).val
      = xorTerms (mkShares xs ps) d.val (logSum d.val (mkShares xs ps)) j 0 (mkShares xs ps)
      from rfl] at hxt
  rw [hxt]
  congr 1
  have hp : ps.getD j 0 ∈ ps := by
    rw [getD_lt_eq_get hj]
    exact ps.get_mem _ _
  have hinjOn : Set.InjOn (fun t => xs.getD t 0) (Finset.range xs.length) := by
    intro p hp' q hq' hpq
    by_contra hne
    exact hinjD p q (by simpa using hp') (by simpa using hq') hne hpq
  have hterm : ∀ k ∈ Finset.range (mkShares xs ps).length,
      termGF (mkShares xs ps) d.val (logSum d.val (mkShares xs ps))
          ((mkShares xs ps).getD k dShare) (0 + k) j
        = ((ps.getD j 0).eval (xs.getD k 0))
          * ((∏ t ∈ (Finset.range xs.length).erase k, (xs.getD t 0 - d))
            * (∏ t ∈ (Finset.range xs.length).erase k, (xs.getD k 0 - xs.getD t 0))⁻¹) := by
    intro k hk
    have hk' : k < xs.length := by
      have hkk := Finset.mem_range.mp hk
      rwa [mkShares_length] at hkk
    rw [Nat.zero_add,
      termGF_eq (y := (ps.getD j 0).eval (xs.getD k 0)) (by
        rw [mkShares_getD hk']
        show (ps.map (fun p => (p.eval (xs.getD k 0)).val)).getD j 0 = _
        rw [getD_map_lt _ ps j hj 0 0]),
      expGF_bVal hk' hinjD hd]
  rw [Finset.sum_congr rfl hterm, mkShares_length,
    ← eval_eq_sum_terms (fun t => xs.getD t 0) hinjOn (ps.getD j 0) (hdeg _ hp) d]

theorem interpolate_correct (xs : List GF256) (ps : List (Polynomial GF256)) (d : GF256)
    (hlen : 2 ≤ xs.length)
    (hdist : ∀ p q (hp : p < xs.length) (hq : q < xs.length), p ≠ q →
      xs.get ⟨p, hp⟩ ≠ xs.get ⟨q, hq⟩)
    (hdeg : ∀ p ∈ ps, p.degree < (xs.length : ℕ)) :
    interpolate (mkShares xs ps) d.val
      = .ok ⟨d.val, ps.map (fun p => (p.eval d).val)⟩ := by
  have hne : xs ≠ [] := by
    intro hc
    rw [hc] at hlen
    simp at hlen
  have hlenS : 2 ≤ (mkShares xs ps).length := by rwa [mkShares_length]
  have hw : ∀ s ∈ mkShares xs ps,
      s.ys.length = ((mkShares xs ps).headD ⟨0, []⟩).ys.length := by
    intro s hs
    obtain ⟨x, _, he⟩ := mkShares_mem hs
    rw [he, mkShares_headD hne]
    simp
  have hinjD : ∀ p q, p < xs.length → q < xs.length → p ≠ q →
      xs.getD p 0 ≠ xs.getD q 0 := by
    intro p q hp hq hpq
    rw [getD_lt_eq_get hp, getD_lt_eq_get hq]
    exact hdist p q hp hq hpq
  have hdistS : ∀ p q (hp : p < (mkShares xs ps).length) (hq : q < (mkShares xs ps).length),
      p ≠ q → ((mkShares xs ps).get ⟨p, hp⟩).x ≠ ((mkShares xs ps).get ⟨q, hq⟩).x := by
    intro p q hp hq hpq
    rw [mkShares_get hp, mkShares_get hq]
    intro hc
    exact hinjD p q (by rwa [mkShares_length] at hp) (by rwa [mkShares_length] at hq) hpq
      (Subtype.ext hc)
  by_cases hcase : ∃ k, ∃ hk : k < xs.length, xs.get ⟨k, hk⟩ = d
  · obtain ⟨k, hk, hkd⟩ := hcase
    have hk' : k < (mkShares xs ps).length := by rwa [mkShares_length]
    have hxk : xs.getD k 0 = d := by rwa [getD_lt_eq_get hk]
    have hxval : ((mkShares xs ps).get ⟨k, hk'⟩).x = d.val := by
      rw [mkShares_get hk', hxk]
    have hres := interpolate_shortCircuit (mkShares xs ps) k hk' hlenS hw hdistS
    rw [hxval] at hres
    rw [hres, mkShares_get hk', hxk]
  · push_neg at hcase
    have hd : ∀ t, t < xs.length → xs.getD t 0 ≠ d := by
      intro t ht
      rw [getD_lt_eq_get ht]
      exact hcase t ht
    have hx : ∀ s ∈ mkShares xs ps, s.x ≠ d.val := by
      intro s hs
      obtain ⟨x, hxm, he⟩ := mkShares_mem hs
      obtain ⟨⟨t, ht⟩, hte⟩ := List.mem_iff_get.mp hxm
      rw [he]
      intro hc
      exact hd t ht (by rw [getD_lt_eq_get ht, hte]; exact Subtype.ext hc)
    rw [interpolate_ok (mkShares xs ps) d.val hlenS hw hdistS hx]
    have hm : ((mkShares xs ps).headD (⟨0, []⟩ : Share)).ys.length = ps.length :=
      mkShares_headD hne
    rw [hm]
    have hys : pass2Val (mkShares xs ps) d.val (logSum d.val (mkShares xs ps)) 0
        (mkShares xs ps) (List.replicate ps.length 0)
        = ps.map (fun p => (p.eval d).val) := by
      have hwrep : ∀ s ∈ mkShares xs ps,
          s.ys.length = (List.replicate ps.length (0 : Nat)).length := by
        intro s hs
        obtain ⟨x, _, he⟩ := mkShares_mem hs
        rw [he, List.length_replicate]
        simp
      apply List.ext_getElem
      · rw [pass2Val_length _ _ _ hwrep, List.length_replicate, List.length_map]
      · intro j h1 h2
        have hj : j < ps.length := by rwa [List.length_map] at h2
        rw [getElem_eq_getD h1 0, getElem_eq_getD h2 0,
          pass2Val_col hj hinjD hd hdeg, getD_map_lt _ ps j hj 0 0]
    rw [hys]

/-- C1: for every n >= 2 pairwise-distinct x values, every family of
polynomials over GF(256) of degree at most n-1, and every destination, the
interpolation of the shares carrying the polynomial values returns the share
whose x is the destination, whose width is the family size, and whose j-th
value is the j-th polynomial evaluated at the destination. -/
theorem c1_interpolate_functional_correctness :
    ∀ (xs : List GF256) (ps : List (Polynomial GF256)) (d : GF256),
      2 ≤ xs.length →
      (∀ p q (hp : p < xs.length) (hq : q < xs.length), p ≠ q →
        xs.get ⟨p, hp⟩ ≠ xs.get ⟨q, hq⟩) →
      (∀ p ∈ ps, p.degree < (xs.length : ℕ)) →
      ∃ r : Share, interpolate (mkShares xs ps) d.val = .ok r ∧
        r.x = d.val ∧ r.ys.length = ps.length ∧
        ∀ j (hj : j < ps.length), r.ys.getD j 0 = ((ps.get ⟨j, hj⟩).eval d).val := by
  intro xs ps d hlen hdist hdeg
  refine ⟨⟨d.val, ps.map (fun p => (p.eval d).val)⟩,
    interpolate_correct xs ps d hlen hdist hdeg, rfl, by simp, ?_⟩
  intro j hj
  show (ps.map (fun p => (p.eval d).val)).getD j 0 = _
  rw [getD_map_lt _ ps j hj 0 0, getD_lt_eq_get hj]

theorem c1_interpolate_functional_correctness_witness :
    2 ≤ ([⟨1, by norm_num⟩, ⟨2, by norm_num⟩] : List GF256).length ∧
    (∃ r : Share,
      interpolate (mkShares [⟨1, by norm_num⟩, ⟨2, by norm_num⟩]
          [Polynomial.C ⟨5, by norm_num⟩]) (⟨3, by norm_num⟩ : GF256).val = .ok r ∧
        r.x = (⟨3, by norm_num⟩ : GF256).val ∧
        r.ys.length = [Polynomial.C (⟨5, by norm_num⟩ : GF256)].length ∧
        ∀ j (hj : j < [Polynomial.C (⟨5, by norm_num⟩ : GF256)].length),
          r.ys.getD j 0
            = ((([Polynomial.C (⟨5, by norm_num⟩ : GF256)] :
                List (Polynomial GF256)).get ⟨j, hj⟩).eval ⟨3, by norm_num⟩).val) :=
  ⟨by norm_num,
    c1_interpolate_functional_correctness [⟨1, by norm_num⟩, ⟨2, by norm_num⟩]
      [Polynomial.C ⟨5, by norm_num⟩] ⟨3, by norm_num⟩ (by norm_num)
      (by
        intro p q hp hq hne
        have hp2 : p < 2 := by simpa using hp
        have hq2 : q < 2 := by simpa using hq
        interval_cases p <;> interval_cases q <;>
          first
            | omega
            | (intro hc; have hcv := congrArg Subtype.val hc; simp [List.get] at hcv))
      (by
        intro p hp
        simp only [List.mem_singleton] at hp
        subst hp
        rw [Polynomial.degree_C (by decide : (⟨5, by norm_num⟩ : GF256) ≠ 0)]
        decide)⟩
